import Mathlib

/-!
Verification development for the hybrid job-search ranking core
(job record store, index builder, filter policy, reciprocal-rank-fusion
search engine).  Python floats are modelled with rationals (and, for the
index builder normalization step, with reals); NumPy arrays of length n
are modelled either as lists or as index functions over `List.range n`.
-/

namespace HiringCafePoc

/-- Job metadata record, translated from the `Job` dataclass in
src/src/data_loader.py.  Optional fields are `Option`; numeric salary and
geo fields are modelled with rationals. -/
structure Job where
  id : String
  apply_url : Option String
  title : Option String
  company_name : Option String
  location : Option String
  description_text : Option String
  seniority_level : Option String
  remote_type : Option String
  employment_type : Option String
  salary_min : Option ℚ
  salary_max : Option ℚ
  required_skills : List String
  company_type : Option String
  industries : List String
  latitude : Option ℚ
  longitude : Option ℚ
deriving DecidableEq, Repr, Inhabited

/-- Filter bundle, translated from the `SearchFilters` dataclass in
src/src/search_engine.py (all fields default to unset there). -/
structure SearchFilters where
  remote_type : Option String
  seniority_level : Option String
  employment_type : Option String
  company_type : Option String
  min_salary : Option ℚ
  industries : List String
deriving DecidableEq, Repr

/-- Per-space weights, translated from the `EmbeddingWeights` dataclass in
src/src/search_engine.py. -/
structure EmbeddingWeights where
  explicit : ℚ
  inferred : ℚ
  company : ℚ
deriving DecidableEq, Repr

/-- Default weights 0.5/0.3/0.2 used when `search` receives `weights=None`. -/
def defaultWeights : EmbeddingWeights := ⟨1/2, 3/10, 1/5⟩

/-- Python truthiness of an optional string (`if f.remote_type:` is false for
both `None` and the empty string). -/
def strTruthy : Option String → Bool
  | none => false
  | some s => s != ""

/-- Alias table `_SENIORITY_ALIASES` from src/src/search_engine.py, as the
lookup function `dict.get(level, set())`. -/
def _SENIORITY_ALIASES (level : String) : List String :=
  if level = "entry level" then ["entry level", "entry", "junior", "entry-level"]
  else if level = "mid level" then ["mid level", "mid", "intermediate", "mid-level"]
  else if level = "senior level" then ["senior level", "senior", "sr", "senior-level"]
  else if level = "manager" then ["manager", "management"]
  else if level = "director" then ["director"]
  else if level = "internship" then ["internship", "intern"]
  else []

/-- Fuzzy seniority matching `_seniority_matches` from src/src/search_engine.py. -/
def _seniority_matches (job_seniority filter_seniority : String) : Bool :=
  job_seniority == filter_seniority
    || (_SENIORITY_ALIASES filter_seniority).contains job_seniority

/-- Remote-type check of `_job_passes_filters`: the early return fires only when
the filter field is truthy, the job field is non-null and the values differ. -/
def remoteClause (job : Job) (f : SearchFilters) : Bool :=
  match f.remote_type, job.remote_type with
  | some fv, some jv => fv == "" || jv == fv
  | _, _ => true

/-- Seniority check of `_job_passes_filters` (fuzzy via the alias table). -/
def seniorityClause (job : Job) (f : SearchFilters) : Bool :=
  match f.seniority_level, job.seniority_level with
  | some fv, some jv => fv == "" || _seniority_matches jv fv
  | _, _ => true

/-- Employment-type check of `_job_passes_filters`. -/
def employmentClause (job : Job) (f : SearchFilters) : Bool :=
  match f.employment_type, job.employment_type with
  | some fv, some jv => fv == "" || jv == fv
  | _, _ => true

/-- Company-type check of `_job_passes_filters`. -/
def companyTypeClause (job : Job) (f : SearchFilters) : Bool :=
  match f.company_type, job.company_type with
  | some fv, some jv => fv == "" || jv == fv
  | _, _ => true

/-- Salary check of `_job_passes_filters`: only exclude when the job has salary
data and it is strictly below the threshold (note: `f.min_salary is not None`
is an explicit null check, not a truthiness check). -/
def salaryClause (job : Job) (f : SearchFilters) : Bool :=
  match f.min_salary, job.salary_max with
  | some m, some s => !(decide (s < m))
  | _, _ => true

/-- Industry check of `_job_passes_filters`: only exclude when the job has a
non-empty industry list with empty intersection with the requested set. -/
def industriesClause (job : Job) (f : SearchFilters) : Bool :=
  match f.industries with
  | [] => true
  | _ => job.industries == [] || job.industries.any (fun ind => f.industries.contains ind)

/-- Translation of `_job_passes_filters` from src/src/search_engine.py: the
chain of early `return False` checks is the conjunction of the six clauses,
in source order. -/
def _job_passes_filters (job : Job) (f : SearchFilters) : Bool :=
  remoteClause job f && seniorityClause job f && employmentClause job f
    && companyTypeClause job f && salaryClause job f && industriesClause job f

/-- Filter bundle with every field unset (the `SearchFilters()` defaults). -/
def emptyFilters : SearchFilters := ⟨none, none, none, none, none, []⟩

/-- Replace only the remote-type field of a filter bundle. -/
def withRemote (f : SearchFilters) (v : Option String) : SearchFilters :=
  ⟨v, f.seniority_level, f.employment_type, f.company_type, f.min_salary, f.industries⟩

/-- Replace only the seniority field of a filter bundle. -/
def withSeniority (f : SearchFilters) (v : Option String) : SearchFilters :=
  ⟨f.remote_type, v, f.employment_type, f.company_type, f.min_salary, f.industries⟩

/-- Replace only the employment-type field of a filter bundle. -/
def withEmployment (f : SearchFilters) (v : Option String) : SearchFilters :=
  ⟨f.remote_type, f.seniority_level, v, f.company_type, f.min_salary, f.industries⟩

/-- Replace only the company-type field of a filter bundle. -/
def withCompanyType (f : SearchFilters) (v : Option String) : SearchFilters :=
  ⟨f.remote_type, f.seniority_level, f.employment_type, v, f.min_salary, f.industries⟩

/-- Replace only the minimum-salary field of a filter bundle. -/
def withMinSalary (f : SearchFilters) (v : Option ℚ) : SearchFilters :=
  ⟨f.remote_type, f.seniority_level, f.employment_type, f.company_type, v, f.industries⟩

/-- Replace only the industries field of a filter bundle. -/
def withIndustries (f : SearchFilters) (v : List String) : SearchFilters :=
  ⟨f.remote_type, f.seniority_level, f.employment_type, f.company_type, f.min_salary, v⟩

/-- Search result entry (`SearchResult` in src/src/search_engine.py); the
result loop only ever appends finite fused scores, so the score is a rational. -/
structure SearchResult where
  job : Job
  score : ℚ
  rank : ℕ
deriving DecidableEq, Repr

/-- Search metadata (`SearchMeta` in src/src/search_engine.py); the wall-clock
`search_time_ms` field is not modelled. -/
structure SearchMeta where
  total_jobs : ℕ
  matched_filters : ℕ
deriving DecidableEq, Repr

/-- Job dataset as consumed by the search engine: record list plus the three
row-aligned embedding matrices.  Modelled from the spec: the BM25 index
(`ds.bm25`) and its score function referenced by src/src/search_engine.py are
not under src/, so the lexical collaborator is an abstract optional function
from query tokens to per-row scores (spec section 4.3 step 4). -/
structure JobDataset where
  jobs : List Job
  explicit_embeddings : List (List ℚ)
  inferred_embeddings : List (List ℚ)
  company_embeddings : List (List ℚ)
  bm25 : Option (List String → List ℚ)

/-- Number of corpus rows, `n = len(ds)` (the length of the job list). -/
def nJobs (ds : JobDataset) : ℕ := ds.jobs.length

/-- Row i of an embedding matrix. -/
def rowAt (m : List (List ℚ)) (i : ℕ) : List ℚ := m.getD i []

/-- Job at row i. -/
def jobAt (ds : JobDataset) (i : ℕ) : Job := ds.jobs.getD i default

/-- Dot product of two rows (`row @ query`). -/
def dot (u v : List ℚ) : ℚ := (List.zipWith (fun a b => a * b) u v).sum

/-- One step of the whitespace splitter, running over the characters from the
right: a whitespace character closes the current word (empty runs produce no
word), any other character extends it. -/
def splitStep (c : Char) (st : List Char × List String) : List Char × List String :=
  if c.isWhitespace then
    ([], if st.1 = [] then st.2 else String.mk st.1 :: st.2)
  else (c :: st.1, st.2)

/-- Split a character list into its maximal non-whitespace runs. -/
def wsWords (cs : List Char) : List String :=
  let st := cs.foldr splitStep ([], [])
  if st.1 = [] then st.2 else String.mk st.1 :: st.2

/-- Lowercase and split on whitespace runs, dropping empty pieces: Python
`s.lower().split()` (lowercasing per character; the splitter is a structural
fold over the characters). -/
def pyWords (s : String) : List String :=
  wsWords (s.toList.map Char.toLower)

/-- Modelled from the spec: `tokenize` is imported by the search engine from
the data loader but is absent from src/; section 4.3 describes the lexical
signal as term based, so the query is lowercased and split into terms. -/
def tokenize (s : String) : List String := pyWords s

/-- Query term set `set(semantic_query.lower().split())` guarded by the
truthiness of `semantic_query`. -/
def queryTermSet (semantic_query : Option String) : List String :=
  match semantic_query with
  | some q => if q != "" then pyWords q else []
  | none => []

/-- Arguments of `SearchEngine.search` other than the dataset. -/
structure SearchArgs where
  query_embedding : List ℚ
  filters : Option SearchFilters
  weights : Option EmbeddingWeights
  top_k : ℕ
  exclusion_embeddings : Option (List (List ℚ))
  semantic_query : Option String
  bm25_weight : ℚ

/-- Exclusion vectors actually iterated (`if exclusion_embeddings:` makes
`None` and the empty list equivalent). -/
def excList (a : SearchArgs) : List (List ℚ) := a.exclusion_embeddings.getD []

/-- Dense semantic score of row i: the weighted sum of the three per-space dot
products minus the stacked `0.3 * (explicit_row . exc)` exclusion penalties. -/
def semanticScoreRaw (ds : JobDataset) (w : EmbeddingWeights) (q : List ℚ)
    (excs : List (List ℚ)) (i : ℕ) : ℚ :=
  w.explicit * dot (rowAt ds.explicit_embeddings i) q
    + w.inferred * dot (rowAt ds.inferred_embeddings i) q
    + w.company * dot (rowAt ds.company_embeddings i) q
    - (excs.map (fun e => 3/10 * dot (rowAt ds.explicit_embeddings i) e)).sum

/-- Raw lexical score of row i: the BM25 collaborator is consulted only when a
truthy `semantic_query` is supplied, the dataset has a BM25 index, and
`bm25_weight > 0`; otherwise the zero array stands. -/
def bm25ScoreRaw (ds : JobDataset) (semantic_query : Option String)
    (bm25_weight : ℚ) (i : ℕ) : ℚ :=
  match semantic_query, ds.bm25 with
  | some q, some scorer =>
      if q != "" && decide (0 < bm25_weight) then (scorer (tokenize q)).getD i 0 else 0
  | _, _ => 0

/-- Mask entry of row i: false exactly when filters were supplied and the job
fails them (`if filters and not _job_passes_filters(job, filters)`). -/
def maskAt (ds : JobDataset) (filters : Option SearchFilters) (i : ℕ) : Bool :=
  match filters with
  | some f => _job_passes_filters (jobAt ds i) f
  | none => true

/-- Salary boost applied in the per-job loop: +0.05 when a minimum-salary
filter is present and the job has `salary_min` at or above it. -/
def salaryBoost (filters : Option SearchFilters) (job : Job) : ℚ :=
  match filters with
  | some f =>
      match f.min_salary, job.salary_min with
      | some m, some sm => if m ≤ sm then 5/100 else 0
      | _, _ => 0
  | none => 0

/-- Number of required skills whose lowercase form is a query term. -/
def skillMatches (qts : List String) (job : Job) : ℕ :=
  job.required_skills.countP (fun s => qts.contains s.toLower)

/-- Skill boost applied in the per-job loop: +0.02 per matched required skill,
capped at 3 matches. -/
def skillBoost (qts : List String) (job : Job) : ℚ :=
  if qts != [] && job.required_skills != [] && skillMatches qts job != 0
  then 2/100 * ((min (skillMatches qts job) 3 : ℕ) : ℚ)
  else 0

/-- Semantic score column after boosts and the filter mask: rows failing the
filters are forced to negative infinity (`np.where(mask, scores, -np.inf)`),
modelled as bottom of `WithBot`. -/
def semMasked (ds : JobDataset) (a : SearchArgs) (i : ℕ) : WithBot ℚ :=
  if maskAt ds a.filters i
  then ((semanticScoreRaw ds (a.weights.getD defaultWeights) a.query_embedding (excList a) i
          + salaryBoost a.filters (jobAt ds i)
          + skillBoost (queryTermSet a.semantic_query) (jobAt ds i) : ℚ) : WithBot ℚ)
  else ⊥

/-- Lexical score column after the filter mask. -/
def bmMasked (ds : JobDataset) (a : SearchArgs) (i : ℕ) : WithBot ℚ :=
  if maskAt ds a.filters i
  then ((bm25ScoreRaw ds a.semantic_query a.bm25_weight i : ℚ) : WithBot ℚ)
  else ⊥

/-- Rank assignment embedding `ranks[np.argsort(-scores)] = np.arange(1, n+1)`.
NumPy's default argsort (quicksort) leaves the order of equal scores
unspecified; this realization resolves ties by original index.  It agrees
with NumPy exactly in the insertion-sort regime (small arrays) and is one
admissible resolution in general; the tie-agnostic contract of the argsort
call is `IsDescArrangement`, and `rankOf` is proved to realize it. -/
def rankOf (s : ℕ → WithBot ℚ) (n i : ℕ) : ℕ :=
  1 + (List.range n).countP (fun j => decide (s i < s j ∨ (s j = s i ∧ j < i)))

/-- Strict precedence realised by the descending stable sort: row j is placed
before row i when its score is higher, or equal with smaller index. -/
def before (s : ℕ → WithBot ℚ) (j i : ℕ) : Prop :=
  s i < s j ∨ (s j = s i ∧ j < i)

instance (s : ℕ → WithBot ℚ) (i : ℕ) : DecidablePred (fun j => before s j i) := fun j =>
  inferInstanceAs (Decidable (s i < s j ∨ (s j = s i ∧ j < i)))

/-- Fusion smoothing constant `RRF_K = 60`. -/
def RRF_K : ℚ := 60

/-- Reciprocal-rank-fusion formula
`sem_weight / (RRF_K + semantic_ranks) + bm25_weight / (RRF_K + bm25_ranks)`
with `sem_weight = 1.0 - bm25_weight`. -/
def fusedPre (bm25_weight : ℚ) (semRank bmRank : ℕ) : ℚ :=
  (1 - bm25_weight) / (RRF_K + (semRank : ℚ)) + bm25_weight / (RRF_K + (bmRank : ℚ))

/-- Fused score of row i before the final mask overwrite. -/
def fusedAt (ds : JobDataset) (a : SearchArgs) (i : ℕ) : ℚ :=
  fusedPre a.bm25_weight (rankOf (semMasked ds a) (nJobs ds) i)
    (rankOf (bmMasked ds a) (nJobs ds) i)

/-- Fused score of row i, with filtered-out rows forced back to negative
infinity (`fused_scores = np.where(mask, fused_scores, -np.inf)`). -/
def fusedMasked (ds : JobDataset) (a : SearchArgs) (i : ℕ) : WithBot ℚ :=
  if maskAt ds a.filters i then ((fusedAt ds a i : ℚ) : WithBot ℚ) else ⊥

/-- Fused score column as a list over the corpus rows. -/
def fusedList (ds : JobDataset) (a : SearchArgs) : List (WithBot ℚ) :=
  (List.range (nJobs ds)).map (fusedMasked ds a)

/-- Total order on row indices used by the model to realise the descending
sort of the fused column: higher score first, ties by larger index first
(the order obtained when the ascending argsort happens to be stable and is
then reversed; the code's argsort does not pin the tie order down, see
`IsDescArrangement`). -/
def idxKey (s : List (WithBot ℚ)) (i j : ℕ) : Prop :=
  s.getD j ⊥ < s.getD i ⊥ ∨ (s.getD i ⊥ = s.getD j ⊥ ∧ j ≤ i)

instance (s : List (WithBot ℚ)) : DecidableRel (idxKey s) := fun i j =>
  inferInstanceAs (Decidable (s.getD j ⊥ < s.getD i ⊥ ∨ (s.getD i ⊥ = s.getD j ⊥ ∧ j ≤ i)))

/-- The model's realization of `np.argsort(fused_scores)[::-1]`: one concrete
descending arrangement of the fused column (NumPy's tie order is
unspecified; this one is exact in the insertion-sort regime).  Properties
claimed of the program are proved over every arrangement satisfying
`IsDescArrangement`, with this realization shown to be one of them. -/
def sortIdxDesc (s : List (WithBot ℚ)) : List ℕ :=
  List.insertionSort (idxKey s) (List.range s.length)

/-- Index list of the top-k retrieval step.  The `top_k >= n` branch is the
full descending argsort; the `np.argpartition` branch selects some top-k
index set (its choice among values tied at the cut is implementation
defined) and sorts it descending — every such outcome is the k-prefix of
some arrangement satisfying `IsDescArrangement`, over which the top-k
properties are proved; this definition realizes the branches with the
model's concrete arrangement. -/
def topIndices (ds : JobDataset) (a : SearchArgs) : List ℕ :=
  if a.top_k ≥ (fusedList ds a).length then sortIdxDesc (fusedList ds a)
  else (sortIdxDesc (fusedList ds a)).take a.top_k

/-- Result loop: walk `top_indices[:top_k]` with 1-based ranks and break at the
first negative-infinity fused score. -/
def collectResults (ds : JobDataset) (a : SearchArgs) : List ℕ → ℕ → List SearchResult
  | [], _ => []
  | idx :: rest, rank =>
    if fusedMasked ds a idx = ⊥ then []
    else ⟨jobAt ds idx, (fusedMasked ds a idx).unbot' 0, rank⟩
      :: collectResults ds a rest (rank + 1)

/-- Translation of `SearchEngine.search` from src/src/search_engine.py. -/
def search (ds : JobDataset) (a : SearchArgs) : List SearchResult × SearchMeta :=
  (collectResults ds a ((topIndices ds a).take a.top_k) 1,
   ⟨nJobs ds, (List.range (nJobs ds)).countP (fun i => maskAt ds a.filters i)⟩)

/-- Contract of a descending argsort call on the score column `s` restricted
to rows 0..n-1: the output is some permutation of the row indices along
which the scores are non-increasing.  This is everything
`np.argsort(-scores)` guarantees — the relative order of equal scores is
unspecified. -/
def IsDescArrangement (s : ℕ → WithBot ℚ) (n : ℕ) (p : List ℕ) : Prop :=
  p.Perm (List.range n) ∧ p.Pairwise (fun i j => s j ≤ s i)

/-- Ranks read off an argsort output: `ranks[p] = np.arange(1, n+1)` assigns
row `p[k]` the rank k+1, i.e. one plus the row's position in `p`. -/
def ranksFrom (p : List ℕ) (i : ℕ) : ℕ := p.indexOf i + 1

/-- Stable-descending total order on rows of the score column `s` (higher
score first, ties by smaller index first): the tie resolution `rankOf`
encodes. -/
def keyOf (s : ℕ → WithBot ℚ) (i j : ℕ) : Prop :=
  s j < s i ∨ (s i = s j ∧ i ≤ j)

instance (s : ℕ → WithBot ℚ) : DecidableRel (keyOf s) := fun i j =>
  inferInstanceAs (Decidable (s j < s i ∨ (s i = s j ∧ i ≤ j)))

/-- The model's concrete argsort realization for a score column given as an
index function: the stable descending arrangement of rows 0..n-1. -/
def argsortF (s : ℕ → WithBot ℚ) (n : ℕ) : List ℕ :=
  List.insertionSort (keyOf s) (List.range n)

/-- Indices whose rows enter the result list when the top-k step walks the
arrangement `q`: the prefix of `q[:top_k]` up to the first negative-infinity
fused score. -/
def walkIndices (ds : JobDataset) (a : SearchArgs) (q : List ℕ) : List ℕ :=
  (q.take a.top_k).takeWhile (fun idx => !decide (fusedMasked ds a idx = ⊥))

/-- Result list produced when the top-k step walks the arrangement `q`. -/
def walkFrom (ds : JobDataset) (a : SearchArgs) (q : List ℕ) : List SearchResult :=
  collectResults ds a (q.take a.top_k) 1

/-- A fully tied two-row score column (both scores 0). -/
def sTied : ℕ → WithBot ℚ := fun _ => ((0 : ℚ) : WithBot ℚ)

/-- Python `a or b` on optional strings: the left value when truthy, else the
right one unchanged. -/
def pyOr (a b : Option String) : Option String :=
  match a with
  | some s => if s != "" then some s else b
  | none => b

/-- Translation of `_normalize_str` from src/src/data_loader.py: strip and
lowercase, mapping the empty result to null. -/
def _normalize_str (v : Option String) : Option String :=
  match v with
  | none => none
  | some s =>
      let t := s.trim.toLower
      if t = "" then none else some t

/-- Translation of `_safe_float` from src/src/data_loader.py.  Raw numeric
fields are modelled as already-numeric rationals, with unparsable values
modelled as the field being absent, so the conversion is the identity. -/
def _safe_float (v : Option ℚ) : Option ℚ := v

/-- Translation of `_derive_company_type` from src/src/data_loader.py, taking
the three consulted fields of `v5_processed_company_data`. -/
def _derive_company_type (isNonProfit isPublic : Bool) (name : Option String) :
    Option String :=
  if isNonProfit then some "non-profit"
  else if isPublic then some "public"
  else if strTruthy name then some "private"
  else none

/-- Translation of `strip_html` from src/src/data_loader.py.  The tag removal
itself is performed by the standard-library HTML-parser collaborator, so the
modelled records carry tag-free text; the final whitespace collapse and strip
(`re.sub` plus `.strip()`) is kept, as is the pass-through of falsy inputs. -/
def strip_html (html : Option String) : Option String :=
  match html with
  | none => none
  | some h =>
      if h = "" then some h
      else some (" ".intercalate ((h.split Char.isWhitespace).filter (fun t => t != "")))

/-- One entry of `v7.work_arrangement.workplace_locations`. -/
structure WorkLoc where
  city : Option String
  state : Option String
  country_code : Option String
deriving DecidableEq, Repr

/-- One entry of the `_geoloc` array. -/
structure GeoPoint where
  lat : Option ℚ
  lon : Option ℚ
deriving DecidableEq, Repr

/-- One parsed JSONL record, with the nested lookups of `_parse_job` and the
dedup-key extraction flattened into typed optional fields (a missing nested
object yields absent fields, matching the defensive `or` chains).  An entry of
`skills.explicit` is `some v` when it is a dict carrying a value.  A source
line that is blank or fails JSON decoding is modelled as `none` upstream. -/
structure RawRecord where
  id : Option String
  apply_url : Option String
  title : Option String
  description : Option String
  companyInfoName : Option String
  v5CoName : Option String
  v5CoIndustries : List String
  v5CoIsNonProfit : Bool
  v5CoIsPublic : Bool
  v5FormattedLocation : Option String
  v5YearlyMin : Option ℚ
  v5YearlyMax : Option ℚ
  workplaceType : Option String
  commitment : List String
  workplaceLocations : List WorkLoc
  seniorityLevel : Option String
  salaryLow : Option ℚ
  salaryHigh : Option ℚ
  skillsExplicit : List (Option String)
  explicitVec : Option (List ℝ)
  inferredVec : Option (List ℝ)
  companyVec : Option (List ℝ)
  geoloc : List GeoPoint

/-- Deduplication key computed identically in both passes of
src/build_index.py: lowercased, stripped title and company name, with falsy
values replaced by the empty string and the company taken from
`v5_processed_company_data.name` or `job_information.company_info.name`. -/
def dedupKey (r : RawRecord) : String × String :=
  ((r.title.getD "").toLower.trim,
   ((pyOr r.v5CoName r.companyInfoName).getD "").toLower.trim)

/-- Python truthiness of an optional vector (`if v:`). -/
def vecTruthy : Option (List ℝ) → Bool
  | none => false
  | some v => !v.isEmpty

/-- Dimension detection of pass 1: length of the first truthy vector among the
three spaces, in source order, else 0. -/
def detectDim (r : RawRecord) : ℕ :=
  if vecTruthy r.explicitVec then (r.explicitVec.getD []).length
  else if vecTruthy r.inferredVec then (r.inferredVec.getD []).length
  else if vecTruthy r.companyVec then (r.companyVec.getD []).length
  else 0

/-- Record-cap check `if max_jobs and count >= max_jobs` (a zero cap is falsy
and disables the cap). -/
def capHit (maxJobs : Option ℕ) (c : ℕ) : Bool :=
  match maxJobs with
  | some m => m != 0 && decide (m ≤ c)
  | none => false

/-- Loop of `_count_and_detect` (pass 1 of src/build_index.py), carrying the
seen-key set, the accepted count and the detected dimension. -/
def countAndDetectAux (maxJobs : Option ℕ) :
    List (Option RawRecord) → List (String × String) → ℕ → ℕ → ℕ × ℕ
  | [], _, count, dim => (count, dim)
  | line :: rest, seen, count, dim =>
    if capHit maxJobs count then (count, dim)
    else
      match line with
      | none => countAndDetectAux maxJobs rest seen count dim
      | some raw =>
        if dedupKey raw ∈ seen then countAndDetectAux maxJobs rest seen count dim
        else
          countAndDetectAux maxJobs rest (dedupKey raw :: seen) (count + 1)
            (if dim = 0 then detectDim raw else dim)

/-- Translation of `_count_and_detect` from src/build_index.py. -/
def _count_and_detect (lines : List (Option RawRecord)) (maxJobs : Option ℕ) : ℕ × ℕ :=
  countAndDetectAux maxJobs lines [] 0 0

/-- Translation of `_parse_job` from src/build_index.py (the field extraction
is identical to the inline parsing of `JobDataset.load`); `i` is the raw line
index from `enumerate`. -/
def _parse_job (raw : RawRecord) (i : ℕ) : Job :=
  let company_name := pyOr raw.v5CoName raw.companyInfoName
  let location :=
    if strTruthy raw.v5FormattedLocation then raw.v5FormattedLocation
    else
      match raw.workplaceLocations with
      | [] => raw.v5FormattedLocation
      | loc :: _ =>
          some (", ".intercalate
            (([loc.city, loc.state, loc.country_code]).filterMap
              (fun p =>
                match p with
                | some s => if s != "" then some s else none
                | none => none)))
  let salary_min := Option.or (_safe_float raw.v5YearlyMin) (_safe_float raw.salaryLow)
  let salary_max := Option.or (_safe_float raw.v5YearlyMax) (_safe_float raw.salaryHigh)
  let employment_type :=
    match raw.commitment with
    | [] => none
    | c :: _ => _normalize_str (some c)
  let geo_point := raw.geoloc.headD ⟨none, none⟩
  ⟨raw.id.getD ("unknown_" ++ toString i),
   raw.apply_url,
   raw.title,
   company_name,
   location,
   strip_html raw.description,
   _normalize_str raw.seniorityLevel,
   _normalize_str raw.workplaceType,
   employment_type,
   salary_min,
   salary_max,
   raw.skillsExplicit.filterMap id,
   _derive_company_type raw.v5CoIsNonProfit raw.v5CoIsPublic raw.v5CoName,
   raw.v5CoIndustries,
   _safe_float geo_point.lat,
   _safe_float geo_point.lon⟩

/-- Euclidean norm `np.linalg.norm(arr)` of a raw vector. -/
noncomputable def listNorm (v : List ℝ) : ℝ :=
  Real.sqrt ((v.map (fun x => x ^ 2)).sum)

/-- Translation of the inner `_norm` of pass 2 in src/build_index.py: the zero
vector of the detected dimension for an absent raw vector, the vector scaled
by the reciprocal norm when the norm is positive, and the vector unchanged
otherwise. -/
noncomputable def _norm (embed_dim : ℕ) (v : Option (List ℝ)) : List ℝ :=
  match v with
  | none => List.replicate embed_dim 0
  | some arr => if 0 < listNorm arr then arr.map (fun x => x / listNorm arr) else arr

/-- Output of pass 2: the appended job list, the three written matrix-row
sequences (in write order) and the skipped-duplicate counter. -/
structure BuildResult where
  jobs : List Job
  explicitRows : List (List ℝ)
  inferredRows : List (List ℝ)
  companyRows : List (List ℝ)
  dupes : ℕ

/-- Loop of pass 2 of `build_index` (src/build_index.py): re-stream all lines
with the same dedup key and the same cap check (on the written-row counter),
parse each accepted record and write its three normalized rows. -/
noncomputable def buildAux (dim : ℕ) (maxJobs : Option ℕ) :
    List (Option RawRecord) → ℕ → List (String × String) → ℕ → BuildResult
  | [], _, _, _ => ⟨[], [], [], [], 0⟩
  | line :: rest, i, seen, row =>
    if capHit maxJobs row then ⟨[], [], [], [], 0⟩
    else
      match line with
      | none => buildAux dim maxJobs rest (i + 1) seen row
      | some raw =>
        if dedupKey raw ∈ seen then
          let r := buildAux dim maxJobs rest (i + 1) seen row
          ⟨r.jobs, r.explicitRows, r.inferredRows, r.companyRows, r.dupes + 1⟩
        else
          let r := buildAux dim maxJobs rest (i + 1) (dedupKey raw :: seen) (row + 1)
          ⟨_parse_job raw i :: r.jobs,
           _norm dim raw.explicitVec :: r.explicitRows,
           _norm dim raw.inferredVec :: r.inferredRows,
           _norm dim raw.companyVec :: r.companyRows,
           r.dupes⟩

/-- Translation of `build_index` from src/build_index.py: run pass 1, bail out
(no artifacts) when no unique job or no dimension was found, otherwise run
pass 2 with the detected dimension. -/
noncomputable def build_index (lines : List (Option RawRecord)) (maxJobs : Option ℕ) :
    Option BuildResult :=
  let p1 := _count_and_detect lines maxJobs
  if p1.1 = 0 ∨ p1.2 = 0 then none
  else some (buildAux p1.2 maxJobs lines 0 [] 0)

/-- Reference acceptance sequence shared by the two passes: the records that
survive the blank-line skip, the dedup check and the cap, each paired with its
raw line index.  Both passes are proved to walk exactly this sequence. -/
def acceptedRecords (maxJobs : Option ℕ) :
    List (Option RawRecord) → ℕ → List (String × String) → ℕ → List (ℕ × RawRecord)
  | [], _, _, _ => []
  | line :: rest, i, seen, c =>
    if capHit maxJobs c then []
    else
      match line with
      | none => acceptedRecords maxJobs rest (i + 1) seen c
      | some raw =>
        if dedupKey raw ∈ seen then acceptedRecords maxJobs rest (i + 1) seen c
        else (i, raw) :: acceptedRecords maxJobs rest (i + 1) (dedupKey raw :: seen) (c + 1)

/-- Job record with only an id, every other field absent. -/
def jBlank (idv : String) : Job :=
  ⟨idv, none, none, none, none, none, none, none, none, none, none, [], none, [], none, none⟩

/-- Job record with an id and a maximum salary, every other field absent. -/
def jSal (idv : String) (smax : ℚ) : Job :=
  ⟨idv, none, none, none, none, none, none, none, none, none, some smax, [], none, [], none, none⟩

/-- Example corpus of the spec (section 8): 3 jobs, D = 2, explicit rows
[[1,0],[0,1],[0.707,0.707]], inferred and company rows zero. -/
def dsExample : JobDataset :=
  ⟨[jBlank "job0", jBlank "job1", jBlank "job2"],
   [[1, 0], [0, 1], [707/1000, 707/1000]],
   [[0, 0], [0, 0], [0, 0]],
   [[0, 0], [0, 0], [0, 0]], none⟩

/-- Example query of the spec: vector [1,0], weights 1/0/0, no filters,
top_k = 2, default lexical weight 0.4. -/
def aExample : SearchArgs := ⟨[1, 0], none, some ⟨1, 0, 0⟩, 2, none, none, 2/5⟩

/-- Salary-filter variant of the example corpus: job 0 has salary_max 90000,
jobs 1 and 2 have salary_max 150000. -/
def dsSalary : JobDataset :=
  ⟨[jSal "job0" 90000, jSal "job1" 150000, jSal "job2" 150000],
   [[1, 0], [0, 1], [707/1000, 707/1000]],
   [[0, 0], [0, 0], [0, 0]],
   [[0, 0], [0, 0], [0, 0]], none⟩

/-- Filter bundle with only min_salary = 100000 set. -/
def fMin100k : SearchFilters := ⟨none, none, none, none, some 100000, []⟩

/-- Example query with the min-salary filter attached. -/
def aSalary : SearchArgs :=
  ⟨[1, 0], some fMin100k, some ⟨1, 0, 0⟩, 2, none, none, 2/5⟩

/-- Two-row corpus on which the fused scores tie: the semantic signal ranks
row 0 first, the lexical scorer ranks row 1 first, and with lexical weight 1/2
both rows obtain the same fused score. -/
def dsTie : JobDataset :=
  ⟨[jBlank "a", jBlank "b"],
   [[1, 0], [0, 0]],
   [[0, 0], [0, 0]],
   [[0, 0], [0, 0]], some (fun _ => [0, 1])⟩

/-- Query for the tied corpus: lexical weight 1/2, truthy lexical query. -/
def aTie : SearchArgs := ⟨[1, 0], none, some ⟨1, 0, 0⟩, 2, none, some "x", 1/2⟩

/-- Raw record with no title and no company name in either location (blank
dedup key), carrying one embedding vector. -/
def rBlank : RawRecord :=
  ⟨none, none, none, none, none, none, [], false, false, none, none, none,
   none, [], [], none, none, none, [], some [1], none, none, []⟩

/-- A record different from `rBlank` (it has an apply URL and different
vectors) that still has a blank dedup key. -/
def rBlank2 : RawRecord :=
  ⟨none, some "x", none, none, none, none, [], false, false, none, none, none,
   none, [], [], none, none, none, [], some [2, 3], none, none, []⟩

lemma remoteClause_of_job_none {j : Job} (f : SearchFilters) (h : j.remote_type = none) :
    remoteClause j f = true := by
  unfold remoteClause
  rw [h]
  cases f.remote_type <;> rfl

lemma seniorityClause_of_job_none {j : Job} (f : SearchFilters)
    (h : j.seniority_level = none) : seniorityClause j f = true := by
  unfold seniorityClause
  rw [h]
  cases f.seniority_level <;> rfl

lemma employmentClause_of_job_none {j : Job} (f : SearchFilters)
    (h : j.employment_type = none) : employmentClause j f = true := by
  unfold employmentClause
  rw [h]
  cases f.employment_type <;> rfl

lemma companyTypeClause_of_job_none {j : Job} (f : SearchFilters)
    (h : j.company_type = none) : companyTypeClause j f = true := by
  unfold companyTypeClause
  rw [h]
  cases f.company_type <;> rfl

lemma salaryClause_of_job_none {j : Job} (f : SearchFilters)
    (h : j.salary_max = none) : salaryClause j f = true := by
  unfold salaryClause
  rw [h]
  cases f.min_salary <;> rfl

lemma industriesClause_of_job_nil {j : Job} (f : SearchFilters)
    (h : j.industries = []) : industriesClause j f = true := by
  unfold industriesClause
  cases f.industries with
  | nil => rfl
  | cons hd tl => simp [h]

lemma remoteClause_none_filter (j : Job) (sl et ct : Option String) (ms : Option ℚ)
    (ind : List String) : remoteClause j ⟨none, sl, et, ct, ms, ind⟩ = true := by
  cases h : j.remote_type <;> simp [remoteClause, h]

lemma seniorityClause_none_filter (j : Job) (rt et ct : Option String) (ms : Option ℚ)
    (ind : List String) : seniorityClause j ⟨rt, none, et, ct, ms, ind⟩ = true := by
  cases h : j.seniority_level <;> simp [seniorityClause, h]

lemma employmentClause_none_filter (j : Job) (rt sl ct : Option String) (ms : Option ℚ)
    (ind : List String) : employmentClause j ⟨rt, sl, none, ct, ms, ind⟩ = true := by
  cases h : j.employment_type <;> simp [employmentClause, h]

lemma companyTypeClause_none_filter (j : Job) (rt sl et : Option String) (ms : Option ℚ)
    (ind : List String) : companyTypeClause j ⟨rt, sl, et, none, ms, ind⟩ = true := by
  cases h : j.company_type <;> simp [companyTypeClause, h]

lemma salaryClause_none_filter (j : Job) (rt sl et ct : Option String)
    (ind : List String) : salaryClause j ⟨rt, sl, et, ct, none, ind⟩ = true := by
  cases h : j.salary_max <;> simp [salaryClause, h]

lemma industriesClause_nil_filter (j : Job) (rt sl et ct : Option String)
    (ms : Option ℚ) : industriesClause j ⟨rt, sl, et, ct, ms, []⟩ = true := rfl

/-- C4: the normalization invariant claim states that pass 2 substitutes the
exact zero vector whenever a raw vector is absent or empty.  The code only
does so for an absent vector: for a present-but-empty raw vector `_norm`
returns the empty (length-0) row, not the zero vector of the detected
dimension, so the subsequent row write cannot broadcast it.  This theorem
evaluates the embedded `_norm` at the failing input. -/
theorem norm_empty_vector_not_padded :
    _norm 2 (some ([] : List ℝ)) = []
    ∧ _norm 2 (none : Option (List ℝ)) = List.replicate 2 (0 : ℝ)
    ∧ ([] : List ℝ) ≠ List.replicate 2 (0 : ℝ) := by
  refine ⟨?_, rfl, by simp⟩
  simp [_norm, listNorm]

/-- C3: filter null-safety.  For every job and filter bundle: each of the six
filter fields is irrelevant to the outcome when the corresponding job field is
null (empty list for industries); the all-unset bundle never excludes; and
unsetting any single filter field preserves a pass, so an unset filter field
never excludes any job. -/
theorem filter_null_safety (j : Job) (f : SearchFilters) :
    (j.remote_type = none → ∀ v,
      _job_passes_filters j (withRemote f v) = _job_passes_filters j (withRemote f none))
    ∧ (j.seniority_level = none → ∀ v,
      _job_passes_filters j (withSeniority f v) = _job_passes_filters j (withSeniority f none))
    ∧ (j.employment_type = none → ∀ v,
      _job_passes_filters j (withEmployment f v) = _job_passes_filters j (withEmployment f none))
    ∧ (j.company_type = none → ∀ v,
      _job_passes_filters j (withCompanyType f v) = _job_passes_filters j (withCompanyType f none))
    ∧ (j.salary_max = none → ∀ v,
      _job_passes_filters j (withMinSalary f v) = _job_passes_filters j (withMinSalary f none))
    ∧ (j.industries = [] → ∀ v,
      _job_passes_filters j (withIndustries f v) = _job_passes_filters j (withIndustries f []))
    ∧ _job_passes_filters j emptyFilters = true
    ∧ (_job_passes_filters j f = true →
        _job_passes_filters j (withRemote f none) = true
        ∧ _job_passes_filters j (withSeniority f none) = true
        ∧ _job_passes_filters j (withEmployment f none) = true
        ∧ _job_passes_filters j (withCompanyType f none) = true
        ∧ _job_passes_filters j (withMinSalary f none) = true
        ∧ _job_passes_filters j (withIndustries f []) = true) := by
  obtain ⟨frt, fsl, fet, fct, fms, find⟩ := f
  refine ⟨?_, ?_, ?_, ?_, ?_, ?_, ?_, ?_⟩
  · intro h v
    unfold _job_passes_filters
    rw [remoteClause_of_job_none _ h, remoteClause_of_job_none _ h]
    rfl
  · intro h v
    unfold _job_passes_filters
    rw [seniorityClause_of_job_none _ h, seniorityClause_of_job_none _ h]
    rfl
  · intro h v
    unfold _job_passes_filters
    rw [employmentClause_of_job_none _ h, employmentClause_of_job_none _ h]
    rfl
  · intro h v
    unfold _job_passes_filters
    rw [companyTypeClause_of_job_none _ h, companyTypeClause_of_job_none _ h]
    rfl
  · intro h v
    unfold _job_passes_filters
    rw [salaryClause_of_job_none _ h, salaryClause_of_job_none _ h]
    rfl
  · intro h v
    unfold _job_passes_filters
    rw [industriesClause_of_job_nil _ h, industriesClause_of_job_nil _ h]
    rfl
  · unfold _job_passes_filters emptyFilters
    rw [remoteClause_none_filter, seniorityClause_none_filter,
      employmentClause_none_filter, companyTypeClause_none_filter,
      salaryClause_none_filter, industriesClause_nil_filter]
    rfl
  · intro hp
    simp only [_job_passes_filters, Bool.and_eq_true] at hp
    obtain ⟨⟨⟨⟨⟨h1, h2⟩, h3⟩, h4⟩, h5⟩, h6⟩ := hp
    refine ⟨?_, ?_, ?_, ?_, ?_, ?_⟩ <;>
      simp only [_job_passes_filters, withRemote, withSeniority, withEmployment,
        withCompanyType, withMinSalary, withIndustries, Bool.and_eq_true] <;>
      refine ⟨⟨⟨⟨⟨?_, ?_⟩, ?_⟩, ?_⟩, ?_⟩, ?_⟩ <;>
      first
      | exact h1
      | exact h2
      | exact h3
      | exact h4
      | exact h5
      | exact h6
      | exact remoteClause_none_filter ..
      | exact seniorityClause_none_filter ..
      | exact employmentClause_none_filter ..
      | exact companyTypeClause_none_filter ..
      | exact salaryClause_none_filter ..
      | exact industriesClause_nil_filter ..

/-- Witness for C3 at a concrete job and filter bundle. -/
theorem filter_null_safety_witness :
    _job_passes_filters (jBlank "w") (withRemote fMin100k (some "remote"))
      = _job_passes_filters (jBlank "w") (withRemote fMin100k none)
    ∧ _job_passes_filters (jBlank "w") fMin100k = true
    ∧ _job_passes_filters (jBlank "w") (withMinSalary fMin100k none) = true := by
  have h := filter_null_safety (jBlank "w") fMin100k
  exact ⟨h.1 rfl (some "remote"),
    by decide,
    ((h.2.2.2.2.2.2.2 (by decide)).2.2.2.2.1)⟩

unseal Rat.add Rat.mul Rat.inv Rat.sub Rat.ofScientific in
/-- C8: the salary filter excludes a job exactly when the job has salary data
(salary_max present) strictly below the requested minimum; in the example
corpus with min_salary = 100000 the job with salary_max = 90000 is excluded
from the search results despite having the highest similarity, while the jobs
with salary_max = 150000 pass the filter. -/
theorem salary_filter_excludes_iff :
    (∀ (j : Job) (f : SearchFilters) (m : ℚ), f.min_salary = some m →
      (_job_passes_filters j f = true ↔
        (_job_passes_filters j (withMinSalary f none) = true
          ∧ ¬ ∃ s, j.salary_max = some s ∧ s < m)))
    ∧ (search dsSalary aSalary).1.map (fun r => r.job.id) = ["job2", "job1"]
    ∧ _job_passes_filters (jSal "job0" 90000) fMin100k = false
    ∧ _job_passes_filters (jSal "job1" 150000) fMin100k = true
    ∧ _job_passes_filters (jSal "job2" 150000) fMin100k = true := by
  refine ⟨?_, by decide, by decide, by decide, by decide⟩
  intro j f m hm
  obtain ⟨frt, fsl, fet, fct, fms, find⟩ := f
  have hm2 : fms = some m := hm
  subst hm2
  cases hs : j.salary_max with
  | none =>
      have h1 := salaryClause_of_job_none (j := j) ⟨frt, fsl, fet, fct, some m, find⟩ hs
      have h2 := salaryClause_of_job_none (j := j) ⟨frt, fsl, fet, fct, none, find⟩ hs
      simp only [_job_passes_filters, withMinSalary, h1, h2, hs]
      constructor
      · intro h
        exact ⟨h, by rintro ⟨s2, hbad, -⟩; cases hbad⟩
      · rintro ⟨h, -⟩
        exact h
  | some s =>
      have hsal : salaryClause j ⟨frt, fsl, fet, fct, some m, find⟩ = !(decide (s < m)) := by
        unfold salaryClause
        rw [hs]
      have h2 := salaryClause_none_filter j frt fsl fet fct find
      simp only [_job_passes_filters, withMinSalary, hsal, h2, hs, Bool.and_eq_true,
        Bool.and_true, Bool.not_eq_true', decide_eq_false_iff_not, Option.some.injEq]
      constructor
      · rintro ⟨⟨⟨⟨⟨hr, hsn⟩, he⟩, hc⟩, hnl⟩, hi⟩
        exact ⟨⟨⟨⟨⟨hr, hsn⟩, he⟩, hc⟩, hi⟩, by rintro ⟨s2, rfl, hlt⟩; exact hnl hlt⟩
      · rintro ⟨⟨⟨⟨⟨hr, hsn⟩, he⟩, hc⟩, hi⟩, hne⟩
        exact ⟨⟨⟨⟨⟨hr, hsn⟩, he⟩, hc⟩, fun hlt => hne ⟨s, rfl, hlt⟩⟩, hi⟩

/-- Witness for C8 at a concrete job, filter and threshold. -/
theorem salary_filter_excludes_iff_witness :
    _job_passes_filters (jSal "job0" 90000) fMin100k = true ↔
      (_job_passes_filters (jSal "job0" 90000) (withMinSalary fMin100k none) = true
        ∧ ¬ ∃ s, (jSal "job0" 90000).salary_max = some s ∧ s < 100000) :=
  salary_filter_excludes_iff.1 (jSal "job0" 90000) fMin100k 100000 rfl

lemma acceptedRecords_cons_none (maxJobs : Option ℕ) (rest : List (Option RawRecord))
    (i : ℕ) (seen : List (String × String)) (c : ℕ) :
    acceptedRecords maxJobs (none :: rest) i seen c
      = if capHit maxJobs c then [] else acceptedRecords maxJobs rest (i + 1) seen c := rfl

lemma acceptedRecords_cons_some (maxJobs : Option ℕ) (raw : RawRecord)
    (rest : List (Option RawRecord)) (i : ℕ) (seen : List (String × String)) (c : ℕ) :
    acceptedRecords maxJobs (some raw :: rest) i seen c
      = if capHit maxJobs c then []
        else if dedupKey raw ∈ seen then acceptedRecords maxJobs rest (i + 1) seen c
        else (i, raw) :: acceptedRecords maxJobs rest (i + 1) (dedupKey raw :: seen) (c + 1) := rfl

lemma countAux_cons_none (maxJobs : Option ℕ) (rest : List (Option RawRecord))
    (seen : List (String × String)) (c dim : ℕ) :
    countAndDetectAux maxJobs (none :: rest) seen c dim
      = if capHit maxJobs c then (c, dim) else countAndDetectAux maxJobs rest seen c dim := rfl

lemma countAux_cons_some (maxJobs : Option ℕ) (raw : RawRecord)
    (rest : List (Option RawRecord)) (seen : List (String × String)) (c dim : ℕ) :
    countAndDetectAux maxJobs (some raw :: rest) seen c dim
      = if capHit maxJobs c then (c, dim)
        else if dedupKey raw ∈ seen then countAndDetectAux maxJobs rest seen c dim
        else countAndDetectAux maxJobs rest (dedupKey raw :: seen) (c + 1)
          (if dim = 0 then detectDim raw else dim) := rfl

lemma buildAux_cons_none (dim : ℕ) (maxJobs : Option ℕ) (rest : List (Option RawRecord))
    (i : ℕ) (seen : List (String × String)) (row : ℕ) :
    buildAux dim maxJobs (none :: rest) i seen row
      = if capHit maxJobs row then ⟨[], [], [], [], 0⟩
        else buildAux dim maxJobs rest (i + 1) seen row := rfl

lemma buildAux_cons_some (dim : ℕ) (maxJobs : Option ℕ) (raw : RawRecord)
    (rest : List (Option RawRecord)) (i : ℕ) (seen : List (String × String)) (row : ℕ) :
    buildAux dim maxJobs (some raw :: rest) i seen row
      = if capHit maxJobs row then ⟨[], [], [], [], 0⟩
        else if dedupKey raw ∈ seen then
          let r := buildAux dim maxJobs rest (i + 1) seen row
          ⟨r.jobs, r.explicitRows, r.inferredRows, r.companyRows, r.dupes + 1⟩
        else
          let r := buildAux dim maxJobs rest (i + 1) (dedupKey raw :: seen) (row + 1)
          ⟨_parse_job raw i :: r.jobs,
           _norm dim raw.explicitVec :: r.explicitRows,
           _norm dim raw.inferredVec :: r.inferredRows,
           _norm dim raw.companyVec :: r.companyRows,
           r.dupes⟩ := rfl

lemma toLower_empty : "".toLower = "" := by
  rw [String.toLower, String.map, String.mapAux]
  simp [String.atEnd]
  intro h
  exact absurd rfl h

lemma trim_empty : "".trim = "" := by
  simp [String.trim, Substring.trim, String.toSubstring, Substring.takeWhileAux,
    Substring.takeRightWhileAux, String.endPos, String.utf8ByteSize, Substring.toString,
    String.extract]

lemma accepted_keys_facts (maxJobs : Option ℕ) :
    ∀ (lines : List (Option RawRecord)) (i : ℕ) (seen : List (String × String)) (c : ℕ),
      (∀ p ∈ acceptedRecords maxJobs lines i seen c, dedupKey p.2 ∉ seen)
      ∧ ((acceptedRecords maxJobs lines i seen c).map (fun p => dedupKey p.2)).Nodup := by
  intro lines
  induction lines with
  | nil =>
      intro i seen c
      constructor
      · intro p hp
        simp [acceptedRecords] at hp
      · simp [acceptedRecords]
  | cons line rest ih =>
      intro i seen c
      by_cases hcap : capHit maxJobs c = true
      · cases line <;> simp [acceptedRecords_cons_none, acceptedRecords_cons_some, hcap]
      · cases line with
        | none =>
            rw [acceptedRecords_cons_none, if_neg hcap]
            exact ih (i + 1) seen c
        | some raw =>
            rw [acceptedRecords_cons_some, if_neg hcap]
            by_cases hk : dedupKey raw ∈ seen
            · rw [if_pos hk]
              exact ih (i + 1) seen c
            · rw [if_neg hk]
              have ihx := ih (i + 1) (dedupKey raw :: seen) (c + 1)
              constructor
              · intro p hp
                rcases List.mem_cons.1 hp with h | h
                · subst h
                  exact hk
                · intro hmem
                  exact ihx.1 p h (List.mem_cons_of_mem _ hmem)
              · refine List.nodup_cons.2 ⟨?_, ihx.2⟩
                intro hmem
                rcases List.mem_map.1 hmem with ⟨p, hp, hkey⟩
                exact ihx.1 p hp (by rw [hkey]; exact List.mem_cons_self _ _)

lemma countAux_count (maxJobs : Option ℕ) :
    ∀ (lines : List (Option RawRecord)) (i : ℕ) (seen : List (String × String)) (c dim : ℕ),
      (countAndDetectAux maxJobs lines seen c dim).1
        = c + (acceptedRecords maxJobs lines i seen c).length := by
  intro lines
  induction lines with
  | nil =>
      intro i seen c dim
      simp [countAndDetectAux, acceptedRecords]
  | cons line rest ih =>
      intro i seen c dim
      by_cases hcap : capHit maxJobs c = true
      · cases line <;>
          simp [acceptedRecords_cons_none, acceptedRecords_cons_some,
            countAux_cons_none, countAux_cons_some, hcap]
      · cases line with
        | none =>
            simp only [countAux_cons_none, acceptedRecords_cons_none, if_neg hcap]
            exact ih (i + 1) seen c dim
        | some raw =>
            simp only [countAux_cons_some, acceptedRecords_cons_some, if_neg hcap]
            by_cases hk : dedupKey raw ∈ seen
            · simp only [if_pos hk]
              exact ih (i + 1) seen c dim
            · simp only [if_neg hk]
              rw [ih (i + 1) (dedupKey raw :: seen) (c + 1)
                (if dim = 0 then detectDim raw else dim)]
              rw [List.length_cons]
              omega

lemma buildAux_rows (dim : ℕ) (maxJobs : Option ℕ) :
    ∀ (lines : List (Option RawRecord)) (i : ℕ) (seen : List (String × String)) (row : ℕ),
      (buildAux dim maxJobs lines i seen row).jobs
        = (acceptedRecords maxJobs lines i seen row).map (fun p => _parse_job p.2 p.1)
      ∧ (buildAux dim maxJobs lines i seen row).explicitRows
        = (acceptedRecords maxJobs lines i seen row).map (fun p => _norm dim p.2.explicitVec)
      ∧ (buildAux dim maxJobs lines i seen row).inferredRows
        = (acceptedRecords maxJobs lines i seen row).map (fun p => _norm dim p.2.inferredVec)
      ∧ (buildAux dim maxJobs lines i seen row).companyRows
        = (acceptedRecords maxJobs lines i seen row).map (fun p => _norm dim p.2.companyVec) := by
  intro lines
  induction lines with
  | nil =>
      intro i seen row
      simp [buildAux, acceptedRecords]
  | cons line rest ih =>
      intro i seen row
      by_cases hcap : capHit maxJobs row = true
      · cases line <;>
          simp [acceptedRecords_cons_none, acceptedRecords_cons_some,
            buildAux_cons_none, buildAux_cons_some, hcap]
      · cases line with
        | none =>
            simp only [buildAux_cons_none, acceptedRecords_cons_none, if_neg hcap]
            exact ih (i + 1) seen row
        | some raw =>
            simp only [buildAux_cons_some, acceptedRecords_cons_some, if_neg hcap]
            by_cases hk : dedupKey raw ∈ seen
            · simp only [if_pos hk]
              have ihx := ih (i + 1) seen row
              exact ⟨ihx.1, ihx.2.1, ihx.2.2.1, ihx.2.2.2⟩
            · simp only [if_neg hk]
              have ihx := ih (i + 1) (dedupKey raw :: seen) (row + 1)
              exact ⟨by simp [ihx.1], by simp [ihx.2.1], by simp [ihx.2.2.1],
                by simp [ihx.2.2.2]⟩

/-- C1: pass 2 applies the same dedup and cap logic as pass 1, so both passes
accept exactly the reference sequence `acceptedRecords`: the number of rows
written and the length of the persisted job list equal the unique count N of
pass 1, and for every index the job record and the three matrix rows are
parsed and normalized from the same accepted source line. -/
theorem build_two_pass_alignment (lines : List (Option RawRecord)) (maxJobs : Option ℕ) :
    (_count_and_detect lines maxJobs).1
        = (acceptedRecords maxJobs lines 0 [] 0).length
    ∧ (buildAux (_count_and_detect lines maxJobs).2 maxJobs lines 0 [] 0).jobs
        = (acceptedRecords maxJobs lines 0 [] 0).map (fun p => _parse_job p.2 p.1)
    ∧ (buildAux (_count_and_detect lines maxJobs).2 maxJobs lines 0 [] 0).explicitRows
        = (acceptedRecords maxJobs lines 0 [] 0).map
            (fun p => _norm (_count_and_detect lines maxJobs).2 p.2.explicitVec)
    ∧ (buildAux (_count_and_detect lines maxJobs).2 maxJobs lines 0 [] 0).inferredRows
        = (acceptedRecords maxJobs lines 0 [] 0).map
            (fun p => _norm (_count_and_detect lines maxJobs).2 p.2.inferredVec)
    ∧ (buildAux (_count_and_detect lines maxJobs).2 maxJobs lines 0 [] 0).companyRows
        = (acceptedRecords maxJobs lines 0 [] 0).map
            (fun p => _norm (_count_and_detect lines maxJobs).2 p.2.companyVec)
    ∧ (buildAux (_count_and_detect lines maxJobs).2 maxJobs lines 0 [] 0).jobs.length
        = (_count_and_detect lines maxJobs).1
    ∧ (buildAux (_count_and_detect lines maxJobs).2 maxJobs lines 0 [] 0).explicitRows.length
        = (_count_and_detect lines maxJobs).1
    ∧ (buildAux (_count_and_detect lines maxJobs).2 maxJobs lines 0 [] 0).inferredRows.length
        = (_count_and_detect lines maxJobs).1
    ∧ (buildAux (_count_and_detect lines maxJobs).2 maxJobs lines 0 [] 0).companyRows.length
        = (_count_and_detect lines maxJobs).1 := by
  have hc : (_count_and_detect lines maxJobs).1
      = (acceptedRecords maxJobs lines 0 [] 0).length := by
    have := countAux_count maxJobs lines 0 [] 0 0
    simpa [_count_and_detect] using this
  have hb := buildAux_rows (_count_and_detect lines maxJobs).2 maxJobs lines 0 [] 0
  refine ⟨hc, hb.1, hb.2.1, hb.2.2.1, hb.2.2.2, ?_, ?_, ?_, ?_⟩
  · rw [hb.1, List.length_map, hc]
  · rw [hb.2.1, List.length_map, hc]
  · rw [hb.2.2.1, List.length_map, hc]
  · rw [hb.2.2.2, List.length_map, hc]

/-- C10: a record missing the title and both company-name sources gets the
blank dedup key, the accepted records of any build have pairwise-distinct
keys (so at most one blank-key record is ever kept), and on a source of two
blank-key records both passes keep only the first and count the second as a
duplicate, however different the records otherwise are. -/
theorem dedup_blank_key :
    (∀ r : RawRecord, r.title = none → r.v5CoName = none → r.companyInfoName = none →
        dedupKey r = ("", ""))
    ∧ (∀ (maxJobs : Option ℕ) (lines : List (Option RawRecord)),
        ((acceptedRecords maxJobs lines 0 [] 0).map (fun p => dedupKey p.2)).Nodup)
    ∧ (∀ r₁ r₂ : RawRecord, dedupKey r₁ = ("", "") → dedupKey r₂ = ("", "") →
        _count_and_detect [some r₁, some r₂] none = (1, detectDim r₁)
        ∧ (buildAux (detectDim r₁) none [some r₁, some r₂] 0 [] 0).jobs = [_parse_job r₁ 0]
        ∧ (buildAux (detectDim r₁) none [some r₁, some r₂] 0 [] 0).dupes = 1) := by
  refine ⟨?_, ?_, ?_⟩
  · intro r h1 h2 h3
    simp [dedupKey, pyOr, h1, h2, h3, toLower_empty, trim_empty]
  · intro maxJobs lines
    exact (accepted_keys_facts maxJobs lines 0 [] 0).2
  · intro r₁ r₂ hk1 hk2
    refine ⟨?_, ?_, ?_⟩
    · simp [_count_and_detect, countAndDetectAux, capHit, hk1, hk2]
    · simp [buildAux, capHit, hk1, hk2]
    · simp [buildAux, capHit, hk1, hk2]

/-- Witness for C10 at two concrete, distinct records with blank keys. -/
theorem dedup_blank_key_witness :
    dedupKey rBlank = ("", "")
    ∧ (buildAux (detectDim rBlank) none [some rBlank, some rBlank2] 0 [] 0).jobs
        = [_parse_job rBlank 0]
    ∧ (buildAux (detectDim rBlank) none [some rBlank, some rBlank2] 0 [] 0).dupes = 1 := by
  have hk1 : dedupKey rBlank = ("", "") := dedup_blank_key.1 rBlank rfl rfl rfl
  have hk2 : dedupKey rBlank2 = ("", "") := dedup_blank_key.1 rBlank2 rfl rfl rfl
  exact ⟨hk1, (dedup_blank_key.2.2 rBlank rBlank2 hk1 hk2).2.1,
    (dedup_blank_key.2.2 rBlank rBlank2 hk1 hk2).2.2⟩

lemma countP_range_card (n : ℕ) (p : ℕ → Prop) [DecidablePred p] :
    (List.range n).countP (fun j => decide (p j)) = ((Finset.range n).filter p).card := by
  induction n with
  | zero => rfl
  | succ k ih =>
      rw [List.range_succ, List.countP_append, Finset.range_succ, Finset.filter_insert]
      by_cases hp : p k
      · rw [if_pos hp, Finset.card_insert_of_not_mem (by simp)]
        have hone : List.countP (fun j => decide (p j)) [k] = 1 := by simp [hp]
        omega
      · rw [if_neg hp]
        have hzero : List.countP (fun j => decide (p j)) [k] = 0 := by simp [hp]
        omega

lemma rankOf_eq_card (s : ℕ → WithBot ℚ) (n i : ℕ) :
    rankOf s n i = 1 + ((Finset.range n).filter (fun j => before s j i)).card := by
  rw [show rankOf s n i = 1 + (List.range n).countP (fun j => decide (before s j i)) from rfl,
    countP_range_card]

lemma before_irrefl (s : ℕ → WithBot ℚ) (i : ℕ) : ¬ before s i i := by
  simp [before]

lemma before_trans {s : ℕ → WithBot ℚ} {k j i : ℕ}
    (h1 : before s k j) (h2 : before s j i) : before s k i := by
  rcases h1 with h1 | ⟨h1e, h1l⟩ <;> rcases h2 with h2 | ⟨h2e, h2l⟩
  · exact Or.inl (lt_trans h2 h1)
  · exact Or.inl (h2e ▸ h1)
  · exact Or.inl (h1e ▸ h2)
  · exact Or.inr ⟨h1e.trans h2e, lt_trans h1l h2l⟩

lemma before_total {s : ℕ → WithBot ℚ} {i j : ℕ} (hne : i ≠ j) :
    before s i j ∨ before s j i := by
  rcases lt_trichotomy (s i) (s j) with h | h | h
  · exact Or.inr (Or.inl h)
  · rcases lt_or_gt_of_ne hne with hl | hl
    · exact Or.inl (Or.inr ⟨h, hl⟩)
    · exact Or.inr (Or.inr ⟨h.symm, hl⟩)
  · exact Or.inl (Or.inl h)

lemma rankOf_lt_of_before {s : ℕ → WithBot ℚ} {n i j : ℕ}
    (hi : i < n) (hb : before s i j) : rankOf s n i < rankOf s n j := by
  rw [rankOf_eq_card, rankOf_eq_card]
  have hsub : (Finset.range n).filter (fun k => before s k i)
      ⊆ (Finset.range n).filter (fun k => before s k j) := by
    intro k hk
    rw [Finset.mem_filter] at hk ⊢
    exact ⟨hk.1, before_trans hk.2 hb⟩
  have hmem : i ∈ (Finset.range n).filter (fun k => before s k j) := by
    rw [Finset.mem_filter]
    exact ⟨Finset.mem_range.2 hi, hb⟩
  have hnotmem : i ∉ (Finset.range n).filter (fun k => before s k i) := by
    rw [Finset.mem_filter]
    rintro ⟨-, hbad⟩
    exact before_irrefl s i hbad
  have hss : (Finset.range n).filter (fun k => before s k i)
      ⊂ (Finset.range n).filter (fun k => before s k j) :=
    (Finset.ssubset_iff_of_subset hsub).2 ⟨i, hmem, hnotmem⟩
  have := Finset.card_lt_card hss
  omega

lemma rankOf_inj {s : ℕ → WithBot ℚ} {n i j : ℕ}
    (hi : i < n) (hj : j < n) (h : rankOf s n i = rankOf s n j) : i = j := by
  by_contra hne
  rcases before_total (s := s) hne with hb | hb
  · exact absurd h (Nat.ne_of_gt (rankOf_lt_of_before hi hb)).symm
  · exact absurd h (Nat.ne_of_gt (rankOf_lt_of_before hj hb))

lemma rankOf_bounds {s : ℕ → WithBot ℚ} {n i : ℕ} (hi : i < n) :
    1 ≤ rankOf s n i ∧ rankOf s n i ≤ n := by
  rw [rankOf_eq_card]
  refine ⟨by omega, ?_⟩
  have hsub : (Finset.range n).filter (fun k => before s k i)
      ⊆ (Finset.range n).erase i := by
    intro k hk
    rw [Finset.mem_filter] at hk
    rw [Finset.mem_erase]
    refine ⟨?_, hk.1⟩
    rintro rfl
    exact before_irrefl _ _ hk.2
  have hcard := Finset.card_le_card hsub
  rw [Finset.card_erase_of_mem (Finset.mem_range.2 hi), Finset.card_range] at hcard
  omega

lemma rankOf_image (s : ℕ → WithBot ℚ) (n : ℕ) :
    (Finset.range n).image (rankOf s n) = Finset.Icc 1 n := by
  apply Finset.eq_of_subset_of_card_le
  · intro r hr
    rcases Finset.mem_image.1 hr with ⟨i, hi, rfl⟩
    have := rankOf_bounds (s := s) (Finset.mem_range.1 hi)
    exact Finset.mem_Icc.2 this
  · rw [Finset.card_image_of_injOn, Finset.card_range, Nat.card_Icc]
    · omega
    · intro i hi j hj hij
      exact rankOf_inj (Finset.mem_range.1 hi) (Finset.mem_range.1 hj) hij

lemma not_before_iff {s : ℕ → WithBot ℚ} {i j : ℕ} :
    ¬ before s j i ↔ (s j < s i ∨ (s j = s i ∧ i ≤ j)) := by
  unfold before
  constructor
  · intro h
    rcases lt_trichotomy (s j) (s i) with hlt | heq | hgt
    · exact Or.inl hlt
    · refine Or.inr ⟨heq, ?_⟩
      by_contra hji
      exact h (Or.inr ⟨heq, Nat.lt_of_not_le hji⟩)
    · exact absurd (Or.inl hgt) h
  · rintro (hlt | ⟨heq, hle⟩) (hbad | ⟨heq2, hlt2⟩)
    · exact absurd hbad (not_lt_of_gt hlt)
    · exact absurd heq2 (ne_of_lt hlt)
    · exact absurd hbad (by rw [heq]; exact lt_irrefl _)
    · exact absurd hlt2 (Nat.not_lt_of_le hle)

lemma rankOf_eq_one_iff {s : ℕ → WithBot ℚ} {n i : ℕ} (_hi : i < n) :
    rankOf s n i = 1 ↔ ∀ j, j < n → (s j < s i ∨ (s j = s i ∧ i ≤ j)) := by
  rw [rankOf_eq_card]
  have : (1 + ((Finset.range n).filter (fun j => before s j i)).card = 1)
      ↔ ((Finset.range n).filter (fun j => before s j i)) = ∅ := by
    rw [Finset.card_eq_zero.symm]
    omega
  rw [this, Finset.eq_empty_iff_forall_not_mem]
  constructor
  · intro h j hj
    have := h j
    rw [Finset.mem_filter, Finset.mem_range] at this
    exact not_before_iff.1 (fun hb => this ⟨hj, hb⟩)
  · intro h j
    rw [Finset.mem_filter, Finset.mem_range]
    rintro ⟨hj, hb⟩
    exact not_before_iff.2 (h j hj) hb

lemma range'_map_succ : ∀ (st n : ℕ),
    (List.range' st n).map (fun t => t + 1) = List.range' (st + 1) n := by
  intro st n
  induction n generalizing st with
  | zero => rfl
  | succ k ih => rw [List.range'_succ, List.range'_succ, List.map_cons, ih]

lemma map_ranksFrom : ∀ {p : List ℕ}, p.Nodup →
    p.map (ranksFrom p) = List.range' 1 p.length := by
  intro p
  induction p with
  | nil => intro _; rfl
  | cons x rest ih =>
      intro hnd
      rcases List.nodup_cons.1 hnd with ⟨hx, hrest⟩
      rw [List.map_cons]
      have hhead : ranksFrom (x :: rest) x = 1 := by
        unfold ranksFrom
        rw [List.indexOf_cons_self]
      have hstep : rest.map (ranksFrom (x :: rest))
          = (rest.map (ranksFrom rest)).map (fun t => t + 1) := by
        rw [List.map_map]
        refine List.map_congr_left ?_
        intro j hj
        have hjx : j ≠ x := fun he => hx (he ▸ hj)
        show ranksFrom (x :: rest) j = ranksFrom rest j + 1
        unfold ranksFrom
        rw [List.indexOf_cons_ne _ (Ne.symm hjx)]
      rw [hhead, hstep, ih hrest, range'_map_succ, List.length_cons,
        List.range'_succ]

lemma ranksFrom_mem_bounds {p : List ℕ} {i : ℕ} (hi : i ∈ p) :
    1 ≤ ranksFrom p i ∧ ranksFrom p i ≤ p.length := by
  unfold ranksFrom
  have := List.indexOf_lt_length.2 hi
  omega

lemma before_iff_keyOf {s : ℕ → WithBot ℚ} {i j : ℕ} :
    before s j i ↔ (keyOf s j i ∧ j ≠ i) := by
  unfold before keyOf
  constructor
  · rintro (hlt | ⟨heq, hlt⟩)
    · refine ⟨Or.inl hlt, ?_⟩
      rintro rfl
      exact lt_irrefl _ hlt
    · exact ⟨Or.inr ⟨heq, le_of_lt hlt⟩, Nat.ne_of_lt hlt⟩
  · rintro ⟨hlt | ⟨heq, hle⟩, hne⟩
    · exact Or.inl hlt
    · exact Or.inr ⟨heq, Nat.lt_of_le_of_ne hle hne⟩

lemma keyOf_trans (s : ℕ → WithBot ℚ) {i j k : ℕ}
    (h1 : keyOf s i j) (h2 : keyOf s j k) : keyOf s i k := by
  rcases h1 with h1 | ⟨h1e, h1l⟩ <;> rcases h2 with h2 | ⟨h2e, h2l⟩
  · exact Or.inl (lt_trans h2 h1)
  · exact Or.inl (h2e ▸ h1)
  · exact Or.inl (h1e ▸ h2)
  · exact Or.inr ⟨h1e.trans h2e, le_trans h1l h2l⟩

lemma keyOf_total (s : ℕ → WithBot ℚ) : ∀ i j, keyOf s i j ∨ keyOf s j i := by
  intro i j
  rcases lt_trichotomy (s i) (s j) with h | h | h
  · exact Or.inr (Or.inl h)
  · rcases Nat.le_total i j with hl | hl
    · exact Or.inl (Or.inr ⟨h, hl⟩)
    · exact Or.inr (Or.inr ⟨h.symm, hl⟩)
  · exact Or.inl (Or.inl h)

lemma keyOf_antisymm (s : ℕ → WithBot ℚ) {i j : ℕ}
    (h1 : keyOf s i j) (h2 : keyOf s j i) : i = j := by
  rcases h1 with h1 | ⟨h1e, h1l⟩ <;> rcases h2 with h2 | ⟨h2e, h2l⟩
  · exact absurd h1 (lt_asymm h2)
  · exact absurd h1 (h2e ▸ lt_irrefl _)
  · exact absurd h2 (h1e ▸ lt_irrefl _)
  · exact Nat.le_antisymm h1l h2l

lemma argsortF_sorted (s : ℕ → WithBot ℚ) (n : ℕ) :
    List.Sorted (keyOf s) (argsortF s n) := by
  haveI ht : IsTotal ℕ (keyOf s) := ⟨keyOf_total s⟩
  haveI htr : IsTrans ℕ (keyOf s) := ⟨fun a b c hab hbc => keyOf_trans s hab hbc⟩
  exact List.sorted_insertionSort _ _

lemma argsortF_perm (s : ℕ → WithBot ℚ) (n : ℕ) :
    (argsortF s n).Perm (List.range n) :=
  List.perm_insertionSort _ _

lemma argsortF_nodup (s : ℕ → WithBot ℚ) (n : ℕ) : (argsortF s n).Nodup :=
  ((argsortF_perm s n).nodup_iff).2 (List.nodup_range _)

lemma argsortF_isDescArrangement (s : ℕ → WithBot ℚ) (n : ℕ) :
    IsDescArrangement s n (argsortF s n) := by
  refine ⟨argsortF_perm s n, ?_⟩
  refine (argsortF_sorted s n).imp ?_
  intro i j hkey
  rcases hkey with hlt | ⟨heq, -⟩
  · exact le_of_lt hlt
  · exact le_of_eq heq.symm

lemma sorted_indexOf_eq_countP (s : ℕ → WithBot ℚ) :
    ∀ (p : List ℕ), p.Nodup → p.Pairwise (keyOf s) →
      ∀ i ∈ p, p.indexOf i = p.countP (fun j => decide (before s j i)) := by
  intro p
  induction p with
  | nil =>
      intro _ _ i hi
      cases hi
  | cons x rest ih =>
      intro hnd hpw i hi
      rcases List.nodup_cons.1 hnd with ⟨hx, hrest⟩
      rcases List.pairwise_cons.1 hpw with ⟨hx_rel, hpw_rest⟩
      by_cases hix : i = x
      · subst hix
        rw [List.indexOf_cons_self, List.countP_cons]
        have hhead : decide (before s i i) = false := decide_eq_false (before_irrefl s i)
        have hrest0 : rest.countP (fun j => decide (before s j i)) = 0 := by
          rw [List.countP_eq_zero]
          intro j hj
          simp only [decide_eq_true_eq]
          intro hb
          rcases before_iff_keyOf.1 hb with ⟨hk, hne⟩
          exact hne (keyOf_antisymm s hk (hx_rel j hj))
        rw [hrest0, hhead]
        simp
      · have hir : i ∈ rest := by
          rcases List.mem_cons.1 hi with h | h
          · exact absurd h hix
          · exact h
        rw [List.indexOf_cons_ne _ (Ne.symm hix), List.countP_cons]
        have hhead : decide (before s x i) = true := by
          rw [decide_eq_true_eq]
          refine before_iff_keyOf.2 ⟨hx_rel i hir, ?_⟩
          exact fun he => hix he.symm
        rw [ih hrest hpw_rest i hir, hhead]
        simp

lemma rankOf_eq_ranksFrom (s : ℕ → WithBot ℚ) (n : ℕ) {i : ℕ} (hi : i < n) :
    rankOf s n i = ranksFrom (argsortF s n) i := by
  have hmem : i ∈ argsortF s n := (argsortF_perm s n).mem_iff.2 (List.mem_range.2 hi)
  have hidx := sorted_indexOf_eq_countP s (argsortF s n) (argsortF_nodup s n)
    (argsortF_sorted s n) i hmem
  have hcnt := (argsortF_perm s n).countP_eq (fun j => decide (before s j i))
  unfold ranksFrom
  rw [hidx, hcnt]
  show 1 + (List.range n).countP (fun j => decide (before s j i)) = _
  omega

/-- C2 (amended): each signal is converted independently to dense ranks by a
descending sort whose tie order among equal scores is unspecified (NumPy's
default argsort is not stable).  For every admissible arrangement: the ranks
read off it are exactly 1, 2, ..., n in sort order, assigned injectively and
within 1..n, and rank 1 is held by a row of maximal score; the pipeline's
rank realization `rankOf` reads its ranks off one admissible arrangement;
and every fused score equals
(1 - lexical_weight)/(60 + dense_rank) + lexical_weight/(60 + lexical_rank)
with fusion constant K = 60. -/
theorem rrf_ranks_and_fusion :
    (∀ (s : ℕ → WithBot ℚ) (n : ℕ) (p : List ℕ), IsDescArrangement s n p →
        p.map (ranksFrom p) = List.range' 1 n)
    ∧ (∀ (s : ℕ → WithBot ℚ) (n : ℕ) (p : List ℕ), IsDescArrangement s n p →
        ∀ i ∈ p, 1 ≤ ranksFrom p i ∧ ranksFrom p i ≤ n)
    ∧ (∀ (s : ℕ → WithBot ℚ) (n : ℕ) (p : List ℕ), IsDescArrangement s n p →
        ∀ i, i ∈ p → ∀ j, j ∈ p → ranksFrom p i = ranksFrom p j → i = j)
    ∧ (∀ (s : ℕ → WithBot ℚ) (n : ℕ) (p : List ℕ), IsDescArrangement s n p →
        ∀ i ∈ p, ranksFrom p i = 1 → ∀ j ∈ p, s j ≤ s i)
    ∧ (∀ (s : ℕ → WithBot ℚ) (n : ℕ), IsDescArrangement s n (argsortF s n)
        ∧ ∀ i, i < n → rankOf s n i = ranksFrom (argsortF s n) i)
    ∧ (∀ (ds : JobDataset) (a : SearchArgs) (i : ℕ),
        fusedAt ds a i
          = (1 - a.bm25_weight) / (60 + (rankOf (semMasked ds a) (nJobs ds) i : ℚ))
            + a.bm25_weight / (60 + (rankOf (bmMasked ds a) (nJobs ds) i : ℚ))) := by
  refine ⟨?_, ?_, ?_, ?_, ?_, ?_⟩
  · intro s n p hdesc
    have hnd : p.Nodup := (hdesc.1.nodup_iff).2 (List.nodup_range _)
    have hlen : p.length = n := by
      have := hdesc.1.length_eq
      rwa [List.length_range] at this
    rw [map_ranksFrom hnd, hlen]
  · intro s n p hdesc i hi
    have hlen : p.length = n := by
      have := hdesc.1.length_eq
      rwa [List.length_range] at this
    have := ranksFrom_mem_bounds hi
    omega
  · intro s n p hdesc i hi j hj h
    unfold ranksFrom at h
    exact (List.indexOf_inj hi hj).1 (by omega)
  · intro s n p hdesc i hi h1 j hj
    unfold ranksFrom at h1
    have h0 : p.indexOf i = 0 := by omega
    cases p with
    | nil => cases hi
    | cons x rest =>
        have hix : i = x := by
          by_contra hne
          rw [List.indexOf_cons_ne _ (Ne.symm hne)] at h0
          exact Nat.succ_ne_zero _ h0
        subst hix
        rcases List.mem_cons.1 hj with rfl | hj2
        · exact le_refl _
        · exact (List.pairwise_cons.1 hdesc.2).1 j hj2
  · intro s n
    exact ⟨argsortF_isDescArrangement s n, fun i hi => rankOf_eq_ranksFrom s n hi⟩
  · intro ds a i
    rfl

/-- Counterexample for C2 as stated: on a fully tied two-row column, the
arrangement [1, 0] satisfies everything the descending argsort guarantees,
yet the ranks read off it give row 1 rank 1 and row 0 rank 2 — the opposite
of the stable tie order (which `rankOf`, shown in the last conjunct, would
assign).  The claimed stable tie-breaking is therefore not a property the
code's sort guarantees. -/
theorem rrf_stable_ties_counterexample :
    IsDescArrangement sTied 2 [1, 0]
    ∧ sTied 0 = sTied 1
    ∧ ranksFrom [1, 0] 1 = 1
    ∧ ranksFrom [1, 0] 0 = 2
    ∧ rankOf sTied 2 0 = 1 := by
  refine ⟨⟨?_, ?_⟩, rfl, rfl, rfl, by decide⟩
  · have h2 : List.range 2 = [0, 1] := rfl
    rw [h2]
    exact List.Perm.swap 0 1 []
  · simp [sTied]

unseal Rat.add Rat.mul Rat.inv Rat.sub Rat.ofScientific in
/-- Witness for C2 (amended): the tied arrangement gives ranks 1, 2 in sort
order with in-range bounds, and the pipeline's rank of row 0 of the example
corpus equals the rank read off the realized arrangement. -/
theorem rrf_ranks_and_fusion_witness :
    [1, 0].map (ranksFrom [1, 0]) = List.range' 1 2
    ∧ (1 ≤ ranksFrom [1, 0] 0 ∧ ranksFrom [1, 0] 0 ≤ 2)
    ∧ rankOf (semMasked dsExample aExample) 3 0
        = ranksFrom (argsortF (semMasked dsExample aExample) 3) 0 := by
  have hperm : List.Perm [1, 0] (List.range 2) := by
    have h2 : List.range 2 = [0, 1] := rfl
    rw [h2]
    exact List.Perm.swap 0 1 []
  have hpw : List.Pairwise (fun i j => sTied j ≤ sTied i) [1, 0] := by simp [sTied]
  have harr : IsDescArrangement sTied 2 [1, 0] := ⟨hperm, hpw⟩
  exact ⟨rrf_ranks_and_fusion.1 sTied 2 [1, 0] harr,
    rrf_ranks_and_fusion.2.1 sTied 2 [1, 0] harr 0 (by decide),
    (rrf_ranks_and_fusion.2.2.2.2.1 (semMasked dsExample aExample) 3).2 0 (by decide)⟩

/-- C9: within one search call, if job i ranks at least as well as job j on
both the dense and the lexical signal, its fused score is at least as large
(for the lexical weight range 0..1 that callers supply). -/
theorem fused_rank_monotone (ds : JobDataset) (a : SearchArgs) (i j : ℕ)
    (hw0 : 0 ≤ a.bm25_weight) (hw1 : a.bm25_weight ≤ 1)
    (h1 : rankOf (semMasked ds a) (nJobs ds) i ≤ rankOf (semMasked ds a) (nJobs ds) j)
    (h2 : rankOf (bmMasked ds a) (nJobs ds) i ≤ rankOf (bmMasked ds a) (nJobs ds) j) :
    fusedAt ds a j ≤ fusedAt ds a i := by
  unfold fusedAt fusedPre RRF_K
  have key : ∀ (c : ℚ) (x y : ℕ), 0 ≤ c → x ≤ y →
      c / (60 + (y : ℚ)) ≤ c / (60 + (x : ℚ)) := by
    intro c x y hc hxy
    gcongr
  have k1 := key (1 - a.bm25_weight) _ _ (by linarith) h1
  have k2 := key a.bm25_weight _ _ hw0 h2
  linarith

unseal Rat.add Rat.mul Rat.inv Rat.sub Rat.ofScientific in
/-- Witness for C9 on the example corpus: row 0 dominates row 1 on both
signals and its fused score is at least as large. -/
theorem fused_rank_monotone_witness :
    fusedAt dsExample aExample 1 ≤ fusedAt dsExample aExample 0 :=
  fused_rank_monotone dsExample aExample 0 1 (by decide) (by decide)
    (by decide) (by decide)

lemma skillBoost_unguarded (qts : List String) (job : Job) :
    skillBoost qts job = 2/100 * ((min (skillMatches qts job) 3 : ℕ) : ℚ) := by
  rcases Nat.eq_zero_or_pos (skillMatches qts job) with hm | hm
  · simp [skillBoost, hm]
  · have hq : qts ≠ [] := by
      intro h0
      rw [h0] at hm
      simp [skillMatches] at hm
    have hsk : job.required_skills ≠ [] := by
      intro h0
      unfold skillMatches at hm
      rw [h0] at hm
      simp at hm
    have hcond : (qts != [] && job.required_skills != [] && skillMatches qts job != 0) = true := by
      simp only [Bool.and_eq_true, bne_iff_ne, ne_eq]
      exact ⟨⟨hq, hsk⟩, by omega⟩
    rw [skillBoost, if_pos hcond]

lemma salaryBoost_eq_of_cond {filters : Option SearchFilters} {job : Job}
    (h : ∃ f m sm, filters = some f ∧ f.min_salary = some m
      ∧ job.salary_min = some sm ∧ m ≤ sm) :
    salaryBoost filters job = 5/100 := by
  obtain ⟨f, m, sm, rfl, hm, hsm, hle⟩ := h
  simp [salaryBoost, hm, hsm, hle]

lemma salaryBoost_eq_zero {filters : Option SearchFilters} {job : Job}
    (h : ¬ ∃ f m sm, filters = some f ∧ f.min_salary = some m
      ∧ job.salary_min = some sm ∧ m ≤ sm) :
    salaryBoost filters job = 0 := by
  unfold salaryBoost
  cases filters with
  | none => rfl
  | some f =>
      cases hm : f.min_salary with
      | none => simp [hm]
      | some m =>
          cases hsm : job.salary_min with
          | none => simp [hm, hsm]
          | some sm =>
              simp only [hm, hsm]
              rw [if_neg]
              intro hle
              exact h ⟨f, m, sm, rfl, hm, hsm, hle⟩

/-- C7: for every job passing the filters, the in-place score adjustment is
exactly +0.05 when a minimum-salary filter is set and the job's confirmed
salary_min meets it, plus 0.02 per required skill matched against the query
terms capped at 3 matches (at most +0.06 from skills); the guards in the
source (non-empty query term set, non-empty skill list, non-zero match count)
change nothing beyond this formula. -/
theorem boost_policy (ds : JobDataset) (a : SearchArgs) (i : ℕ)
    (h : maskAt ds a.filters i = true) :
    ((∃ f m sm, a.filters = some f ∧ f.min_salary = some m
        ∧ (jobAt ds i).salary_min = some sm ∧ m ≤ sm) →
      semMasked ds a i
        = ((semanticScoreRaw ds (a.weights.getD defaultWeights) a.query_embedding (excList a) i
            + 5/100
            + 2/100 * ((min (skillMatches (queryTermSet a.semantic_query) (jobAt ds i)) 3 : ℕ) : ℚ)
            : ℚ) : WithBot ℚ))
    ∧ ((¬ ∃ f m sm, a.filters = some f ∧ f.min_salary = some m
        ∧ (jobAt ds i).salary_min = some sm ∧ m ≤ sm) →
      semMasked ds a i
        = ((semanticScoreRaw ds (a.weights.getD defaultWeights) a.query_embedding (excList a) i
            + 2/100 * ((min (skillMatches (queryTermSet a.semantic_query) (jobAt ds i)) 3 : ℕ) : ℚ)
            : ℚ) : WithBot ℚ))
    ∧ 2/100 * ((min (skillMatches (queryTermSet a.semantic_query) (jobAt ds i)) 3 : ℕ) : ℚ)
        ≤ 6/100 := by
  refine ⟨?_, ?_, ?_⟩
  · intro hc
    unfold semMasked
    rw [if_pos h, salaryBoost_eq_of_cond hc, skillBoost_unguarded]
  · intro hc
    unfold semMasked
    rw [if_pos h, salaryBoost_eq_zero hc, skillBoost_unguarded, add_zero]
  · have hle : ((min (skillMatches (queryTermSet a.semantic_query) (jobAt ds i)) 3 : ℕ) : ℚ)
        ≤ 3 := by
      exact_mod_cast Nat.min_le_right _ 3
    linarith

unseal Rat.add Rat.mul Rat.inv Rat.sub Rat.ofScientific in
/-- Witness for C7 at row 0 of the example corpus (no filters, so the salary
condition is vacuously false and only the skill term remains). -/
theorem boost_policy_witness :
    semMasked dsExample aExample 0
      = ((semanticScoreRaw dsExample (aExample.weights.getD defaultWeights)
            aExample.query_embedding (excList aExample) 0
          + 2/100 * ((min (skillMatches (queryTermSet aExample.semantic_query)
              (jobAt dsExample 0)) 3 : ℕ) : ℚ) : ℚ) : WithBot ℚ) := by
  have h := boost_policy dsExample aExample 0 (by decide)
  exact h.2.1 (by rintro ⟨f, m, sm, hbad, -⟩; cases hbad)

lemma fusedList_length (ds : JobDataset) (a : SearchArgs) :
    (fusedList ds a).length = nJobs ds := by
  simp [fusedList]

lemma fusedList_getD {ds : JobDataset} {a : SearchArgs} {i : ℕ} (hi : i < nJobs ds) :
    (fusedList ds a).getD i ⊥ = fusedMasked ds a i := by
  unfold fusedList
  rw [List.getD_eq_getElem?_getD]
  simp [List.getElem?_range, hi]

lemma fusedMasked_pred_eq_mask (ds : JobDataset) (a : SearchArgs) (i : ℕ) :
    (!decide (fusedMasked ds a i = ⊥)) = maskAt ds a.filters i := by
  unfold fusedMasked
  by_cases h : maskAt ds a.filters i = true
  · simp [h]
  · rw [Bool.not_eq_true] at h
    simp [h]

lemma idxKey_trans (s : List (WithBot ℚ)) {i j k : ℕ}
    (h1 : idxKey s i j) (h2 : idxKey s j k) : idxKey s i k := by
  rcases h1 with h1 | ⟨h1e, h1l⟩ <;> rcases h2 with h2 | ⟨h2e, h2l⟩
  · exact Or.inl (lt_trans h2 h1)
  · exact Or.inl (h2e ▸ h1)
  · exact Or.inl (h1e ▸ h2)
  · exact Or.inr ⟨h1e.trans h2e, le_trans h2l h1l⟩

lemma idxKey_total (s : List (WithBot ℚ)) : ∀ i j, idxKey s i j ∨ idxKey s j i := by
  intro i j
  rcases lt_trichotomy (s.getD i ⊥) (s.getD j ⊥) with h | h | h
  · exact Or.inr (Or.inl h)
  · rcases Nat.le_total j i with hl | hl
    · exact Or.inl (Or.inr ⟨h, hl⟩)
    · exact Or.inr (Or.inr ⟨h.symm, hl⟩)
  · exact Or.inl (Or.inl h)

lemma sortIdxDesc_sorted (s : List (WithBot ℚ)) :
    List.Sorted (idxKey s) (sortIdxDesc s) := by
  haveI ht : IsTotal ℕ (idxKey s) := ⟨idxKey_total s⟩
  haveI htr : IsTrans ℕ (idxKey s) := ⟨fun a b c hab hbc => idxKey_trans s hab hbc⟩
  exact List.sorted_insertionSort _ _

lemma sortIdxDesc_perm (s : List (WithBot ℚ)) :
    (sortIdxDesc s).Perm (List.range s.length) :=
  List.perm_insertionSort _ _

lemma mem_sortIdxDesc {s : List (WithBot ℚ)} {i : ℕ} :
    i ∈ sortIdxDesc s ↔ i < s.length := by
  rw [(sortIdxDesc_perm s).mem_iff, List.mem_range]

lemma sortIdxDesc_nodup (s : List (WithBot ℚ)) : (sortIdxDesc s).Nodup :=
  ((sortIdxDesc_perm s).nodup_iff).2 (List.nodup_range _)

lemma takeWhile_take (p : ℕ → Bool) :
    ∀ (l : List ℕ) (k : ℕ), (l.take k).takeWhile p = (l.takeWhile p).take k := by
  intro l
  induction l with
  | nil => simp
  | cons x rest ih =>
      intro k
      cases k with
      | zero => simp
      | succ k2 =>
          by_cases hp : p x = true
          · simp only [List.take_succ_cons, List.takeWhile_cons, hp, if_true]
            rw [ih k2]
          · simp only [List.take_succ_cons, List.takeWhile_cons, hp, if_false]
            simp

lemma topIndices_take (ds : JobDataset) (a : SearchArgs) :
    (topIndices ds a).take a.top_k = (sortIdxDesc (fusedList ds a)).take a.top_k := by
  unfold topIndices
  by_cases h : a.top_k ≥ (fusedList ds a).length
  · rw [if_pos h]
  · rw [if_neg h, List.take_take]
    simp

lemma sortIdxDesc_isDescArrangement (ds : JobDataset) (a : SearchArgs) :
    IsDescArrangement (fusedMasked ds a) (nJobs ds) (sortIdxDesc (fusedList ds a)) := by
  constructor
  · have h := sortIdxDesc_perm (fusedList ds a)
    rwa [fusedList_length] at h
  · have hsorted : (sortIdxDesc (fusedList ds a)).Pairwise (idxKey (fusedList ds a)) :=
      sortIdxDesc_sorted (fusedList ds a)
    refine hsorted.imp_of_mem ?_
    intro i j hi hj hkey
    have hi_n : i < nJobs ds := by
      have := mem_sortIdxDesc.1 hi
      rwa [fusedList_length] at this
    have hj_n : j < nJobs ds := by
      have := mem_sortIdxDesc.1 hj
      rwa [fusedList_length] at this
    rw [idxKey, fusedList_getD hi_n, fusedList_getD hj_n] at hkey
    rcases hkey with hlt | ⟨heq, -⟩
    · exact le_of_lt hlt
    · exact le_of_eq heq.symm

lemma collectResults_cons (ds : JobDataset) (a : SearchArgs) (idx : ℕ)
    (rest : List ℕ) (r : ℕ) :
    collectResults ds a (idx :: rest) r
      = if fusedMasked ds a idx = ⊥ then []
        else ⟨jobAt ds idx, (fusedMasked ds a idx).unbot' 0, r⟩
          :: collectResults ds a rest (r + 1) := rfl

lemma collectResults_facts (ds : JobDataset) (a : SearchArgs) :
    ∀ (idxs : List ℕ) (r : ℕ),
      (collectResults ds a idxs r).map (fun x => x.job)
        = (idxs.takeWhile (fun idx => !decide (fusedMasked ds a idx = ⊥))).map (jobAt ds)
      ∧ (collectResults ds a idxs r).map (fun x => ((x.score : ℚ) : WithBot ℚ))
        = (idxs.takeWhile (fun idx => !decide (fusedMasked ds a idx = ⊥))).map
            (fusedMasked ds a)
      ∧ (collectResults ds a idxs r).map (fun x => x.rank)
        = List.range' r
            (idxs.takeWhile (fun idx => !decide (fusedMasked ds a idx = ⊥))).length
      ∧ (collectResults ds a idxs r).length
        = (idxs.takeWhile (fun idx => !decide (fusedMasked ds a idx = ⊥))).length := by
  intro idxs
  induction idxs with
  | nil =>
      intro r
      simp [collectResults]
  | cons idx rest ih =>
      intro r
      by_cases hb : fusedMasked ds a idx = ⊥
      · have hpx : (!decide (fusedMasked ds a idx = ⊥)) = false := by simp [hb]
        rw [collectResults_cons, if_pos hb, List.takeWhile_cons, hpx]
        simp
      · have hpx : (!decide (fusedMasked ds a idx = ⊥)) = true := by simp [hb]
        rw [collectResults_cons, if_neg hb, List.takeWhile_cons, hpx]
        have hcoe : (((fusedMasked ds a idx).unbot' 0 : ℚ) : WithBot ℚ)
            = fusedMasked ds a idx := by
          rcases WithBot.ne_bot_iff_exists.1 hb with ⟨q, hq⟩
          rw [← hq]
          rfl
        have ihx := ih (r + 1)
        simp only [if_true, List.map_cons, List.length_cons]
        refine ⟨by rw [ihx.1], by rw [hcoe, ihx.2.1], ?_, by rw [ihx.2.2.2]⟩
        rw [List.range'_succ, ihx.2.2.1]

lemma takeWhile_len_eq_countP (ds : JobDataset) (a : SearchArgs) :
    ∀ (l : List ℕ),
      l.Pairwise (fun i j => fusedMasked ds a j ≤ fusedMasked ds a i) →
      (l.takeWhile (fun idx => !decide (fusedMasked ds a idx = ⊥))).length
        = l.countP (fun idx => !decide (fusedMasked ds a idx = ⊥)) := by
  intro l
  induction l with
  | nil => simp
  | cons x rest ih =>
      intro hs
      rcases List.pairwise_cons.1 hs with ⟨hx_rel, hrest⟩
      by_cases hb : fusedMasked ds a x = ⊥
      · have hpx : (!decide (fusedMasked ds a x = ⊥)) = false := by simp [hb]
        have hall : ∀ y ∈ rest, fusedMasked ds a y = ⊥ := by
          intro y hy
          have hle := hx_rel y hy
          rw [hb] at hle
          exact le_bot_iff.1 hle
        rw [List.takeWhile_cons, hpx, List.countP_cons, hpx]
        have hcz : rest.countP (fun idx => !decide (fusedMasked ds a idx = ⊥)) = 0 := by
          rw [List.countP_eq_zero]
          intro y hy
          simp [hall y hy]
        simp [hcz]
      · have hpx : (!decide (fusedMasked ds a x = ⊥)) = true := by simp [hb]
        rw [List.takeWhile_cons, hpx, List.countP_cons, hpx]
        simp only [if_true, List.length_cons]
        rw [ih hrest]

/-- C5 (amended): the code guarantees only that the top-k step walks some
descending arrangement of the fused column (NumPy leaves the order of equal
scores unspecified, both in the full argsort and at the argpartition cut).
For EVERY such arrangement: the walked results are min(top_k, number of
filter-passing rows) jobs with ranks 1,2,...; every returned row passed the
filters; scores are non-increasing; and every filter-passing row left out
scores no higher than any returned row.  The model's concrete pipeline
(`search`) realizes one admissible arrangement. -/
theorem topk_selection (ds : JobDataset) (a : SearchArgs) :
    (IsDescArrangement (fusedMasked ds a) (nJobs ds) (sortIdxDesc (fusedList ds a))
      ∧ (search ds a).1 = walkFrom ds a (sortIdxDesc (fusedList ds a)))
    ∧ (∀ q, IsDescArrangement (fusedMasked ds a) (nJobs ds) q →
        (walkFrom ds a q).map (fun x => x.job) = (walkIndices ds a q).map (jobAt ds)
        ∧ (walkFrom ds a q).map (fun x => ((x.score : ℚ) : WithBot ℚ))
            = (walkIndices ds a q).map (fusedMasked ds a)
        ∧ (walkFrom ds a q).map (fun x => x.rank)
            = List.range' 1 (walkIndices ds a q).length
        ∧ (walkIndices ds a q).length
            = min a.top_k ((List.range (nJobs ds)).countP
                (fun i => maskAt ds a.filters i))
        ∧ (∀ i ∈ walkIndices ds a q, maskAt ds a.filters i = true ∧ i < nJobs ds)
        ∧ (walkIndices ds a q).Pairwise
            (fun i j => fusedMasked ds a j ≤ fusedMasked ds a i)
        ∧ (∀ i, i < nJobs ds → maskAt ds a.filters i = true →
            i ∉ walkIndices ds a q → ∀ j ∈ walkIndices ds a q,
              fusedMasked ds a i ≤ fusedMasked ds a j)) := by
  constructor
  · refine ⟨sortIdxDesc_isDescArrangement ds a, ?_⟩
    show collectResults ds a ((topIndices ds a).take a.top_k) 1
      = collectResults ds a ((sortIdxDesc (fusedList ds a)).take a.top_k) 1
    rw [topIndices_take]
  · intro q hq
    obtain ⟨hperm, hpair⟩ := hq
    have hmemq : ∀ i ∈ q, i < nJobs ds := by
      intro i hi
      exact List.mem_range.1 (hperm.mem_iff.1 hi)
    have hfacts := collectResults_facts ds a (q.take a.top_k) 1
    refine ⟨hfacts.1, hfacts.2.1, hfacts.2.2.1, ?_, ?_, ?_, ?_⟩
    · show ((q.take a.top_k).takeWhile
          (fun idx => !decide (fusedMasked ds a idx = ⊥))).length = _
      rw [takeWhile_take, List.length_take]
      congr 1
      rw [takeWhile_len_eq_countP ds a q hpair, hperm.countP_eq]
      exact List.countP_congr (fun i _ => by rw [fusedMasked_pred_eq_mask ds a i])
    · intro i hi
      have hp := List.mem_takeWhile_imp
        (p := fun idx => !decide (fusedMasked ds a idx = ⊥)) hi
      have hiq : i ∈ q := by
        have h1 := ( List.takeWhile_prefix _).sublist.subset hi
        exact List.take_subset _ _ h1
      refine ⟨?_, hmemq i hiq⟩
      rw [← fusedMasked_pred_eq_mask]
      exact hp
    · have hsubl : List.Sublist (walkIndices ds a q) q := by
        unfold walkIndices
        exact ( List.takeWhile_prefix _).sublist.trans (List.take_sublist _ _)
      exact List.Pairwise.sublist hsubl hpair
    · intro i hi_n hmask hnotin j hj
      have hiq : i ∈ q := hperm.mem_iff.2 (List.mem_range.2 hi_n)
      have hpre : walkIndices ds a q <+: q := by
        unfold walkIndices
        exact ( List.takeWhile_prefix _).trans ( List.take_prefix _ _)
      obtain ⟨tail, htail⟩ := hpre
      have hpair2 : List.Pairwise (fun i j => fusedMasked ds a j ≤ fusedMasked ds a i)
          (walkIndices ds a q ++ tail) := by
        rw [htail]
        exact hpair
      have hcross := (List.pairwise_append.1 hpair2).2.2
      have hitail : i ∈ tail := by
        rw [← htail] at hiq
        rcases List.mem_append.1 hiq with h | h
        · exact absurd h hnotin
        · exact h
      exact hcross j hj i hitail

unseal Rat.add Rat.mul Rat.inv Rat.sub Rat.ofScientific in
/-- Counterexample for C5 as stated: on the two-row tied corpus the two fused
scores are equal, yet the result list returns row 1 before row 0 — ties are
broken by original row index descending, not ascending as claimed. -/
theorem topk_tie_order_counterexample :
    (search dsTie aTie).1.map (fun r => (r.job.id, r.score, r.rank))
      = [("b", 123/7564, 1), ("a", 123/7564, 2)]
    ∧ fusedMasked dsTie aTie 0 = fusedMasked dsTie aTie 1
    ∧ (dsTie.jobs.getD 0 default).id = "a"
    ∧ (dsTie.jobs.getD 1 default).id = "b" := by
  refine ⟨by decide, by decide, by decide, by decide⟩

unseal Rat.add Rat.mul Rat.inv Rat.sub Rat.ofScientific in
/-- Witness for C5 (amended) on the example corpus, walking the model's
concrete arrangement. -/
theorem topk_selection_witness :
    (walkIndices dsExample aExample (sortIdxDesc (fusedList dsExample aExample))).length
      = min aExample.top_k ((List.range (nJobs dsExample)).countP
          (fun i => maskAt dsExample aExample.filters i))
    ∧ maskAt dsExample aExample.filters 0 = true := by
  have h := topk_selection dsExample aExample
  have hq := h.2 (sortIdxDesc (fusedList dsExample aExample)) h.1.1
  exact ⟨hq.2.2.2.1, (hq.2.2.2.2.1 0 (by decide)).1⟩

unseal Rat.add Rat.mul Rat.inv Rat.sub Rat.ofScientific in
/-- Counterexample for C6 as stated: in the spec example scenario the first
returned score is the fused value 1/61, not the cosine value 1.0 that the
claim asserts. -/
theorem example_scenario_counterexample :
    (search dsExample aExample).1.map (fun r => r.score) = [1/61, 313/19530]
    ∧ ((1 : ℚ)/61) ≠ 1 := by
  refine ⟨by decide, by decide⟩

unseal Rat.add Rat.mul Rat.inv Rat.sub Rat.ofScientific in
/-- C6 (amended): in the example scenario the ranking is as the spec expects
— job 0 first, job 2 second, job 1 absent — but the returned scores are the
RRF-fused values 1/61 (roughly 0.0164) and 313/19530 (roughly 0.0160), not
the cosine similarities 1.0 and 0.707. -/
theorem example_scenario_ranking :
    (search dsExample aExample).1.map (fun r => (r.job.id, r.score, r.rank))
      = [("job0", 1/61, 1), ("job2", 313/19530, 2)]
    ∧ (((search dsExample aExample).1.map (fun r => r.job.id)).contains "job1") = false := by
  refine ⟨by decide, by decide⟩

end HiringCafePoc
